import Mathlib

set_option maxRecDepth 8000

/-!
Verification of the `lvfpgahdltools` build-automation scripts.

The Python sources are shallowly embedded over `List Char` (named `Str`
here).  Pure text-processing functions are translated directly; filesystem
interaction (directory walks, copy success) is abstracted into explicit
oracle parameters, and functions that raise exceptions are modelled with
`Option`/sum-like result types whose constructors correspond to the raise
sites of the source.
-/

namespace LvFpga

/-- Strings are modelled as lists of characters. -/
abbrev Str := List Char

/-- Convert a Lean string literal to the `List Char` representation. -/
def str (s : String) : Str := s.toList

/-- Python whitespace (`str.strip()` / regex `\s`), restricted to the ASCII
whitespace characters that occur in the embedded texts. -/
def isPyWs (c : Char) : Bool :=
  c == ' ' || c == '\t' || c == '\n' || c == '\r' || c == '\x0b' || c == '\x0c'

/-- Python `str.lstrip()`. -/
def trimL (l : Str) : Str := l.dropWhile isPyWs

/-- Python `str.rstrip()`. -/
def trimR (l : Str) : Str := (l.reverse.dropWhile isPyWs).reverse

/-- Python `str.strip()`. -/
def trim (l : Str) : Str := trimL (trimR l)

/-- Python `s.replace(a, b)` for single-character `a` and `b`. -/
def replaceChar (a b : Char) (l : Str) : Str :=
  l.map (fun c => if c = a then b else c)

/-- Python `pat in s` (substring containment). -/
def containsSub (pat : Str) : Str → Bool
  | [] => List.isPrefixOf pat []
  | a :: l => List.isPrefixOf pat (a :: l) || containsSub pat l

/-- The characters of `s` that precede the first occurrence of the substring
`pat` (all of `s` when `pat` does not occur). -/
def beforeSub (pat : Str) : Str → Str
  | [] => []
  | a :: l => if List.isPrefixOf pat (a :: l) then [] else a :: beforeSub pat l

/-- Python `s.split(c)` for a single-character separator: every part is kept,
including empty ones, so the result is always non-empty. -/
def splitOnChar (c : Char) : Str → List Str
  | [] => [[]]
  | a :: l =>
    if a = c then [] :: splitOnChar c l
    else
      match splitOnChar c l with
      | [] => [[a]]
      | p :: ps => (a :: p) :: ps

/-- Python `os.path.basename` on forward-slash paths: the part after the
last `/`. -/
def basename (p : Str) : Str := (p.reverse.takeWhile (fun c => c != '/')).reverse

/-- Python `os.path.join(a, b)` on POSIX for a relative second component. -/
def pjoin (a b : Str) : Str := a ++ '/' :: b

/-! ### Basic lemmas about the string utilities -/

theorem splitOnChar_ne_nil (c : Char) (l : Str) : splitOnChar c l ≠ [] := by
  cases l with
  | nil => simp [splitOnChar]
  | cons a l =>
    simp only [splitOnChar]
    split
    · simp
    · split <;> simp

theorem splitOnChar_not_mem {c : Char} {l : Str} (h : c ∉ l) :
    splitOnChar c l = [l] := by
  induction l with
  | nil => rfl
  | cons a l ih =>
    have ha : a ≠ c := by rintro rfl; exact h (List.mem_cons_self _ _)
    have h' : c ∉ l := fun hm => h (List.mem_cons_of_mem _ hm)
    simp only [splitOnChar, if_neg ha, ih h']

theorem splitOnChar_append_cons {c : Char} {xs : Str} (ys : Str) (h : c ∉ xs) :
    splitOnChar c (xs ++ c :: ys) = xs :: splitOnChar c ys := by
  induction xs with
  | nil => simp [splitOnChar]
  | cons a xs ih =>
    have ha : a ≠ c := by rintro rfl; exact h (List.mem_cons_self _ _)
    have h' : c ∉ xs := fun hm => h (List.mem_cons_of_mem _ hm)
    simp only [List.cons_append, splitOnChar, if_neg ha, List.append_eq, ih h']

/-- `basename` of a path with no slash is the path itself. -/
theorem basename_no_slash {p : Str} (h : '/' ∉ p) : basename p = p := by
  unfold basename
  rw [List.takeWhile_eq_self_iff.2, List.reverse_reverse]
  intro c hc
  have : c ∈ p := by
    have := List.mem_reverse.1 hc
    exact this
  simp only [bne_iff_ne, ne_eq]
  rintro rfl
  exact h this

/-- `basename` never contains a slash. -/
theorem slash_not_mem_basename (p : Str) : '/' ∉ basename p := by
  unfold basename
  intro h
  have h' := List.mem_reverse.1 h
  have := List.mem_takeWhile_imp h'
  simp at this

/-- `basename` of a join with a slash-free final component. -/
theorem basename_append {a b : Str} (h : '/' ∉ b) :
    basename (a ++ '/' :: b) = b := by
  unfold basename
  rw [List.reverse_append, List.reverse_cons, List.append_assoc,
    List.takeWhile_append]
  have hb : b.reverse.takeWhile (fun c => c != '/') = b.reverse := by
    rw [List.takeWhile_eq_self_iff.2]
    intro c hc
    have : c ∈ b := List.mem_reverse.1 hc
    simp only [bne_iff_ne, ne_eq]
    rintro rfl
    exact h this
  rw [hb]
  simp

theorem basename_pjoin {t b : Str} (h : '/' ∉ b) : basename (pjoin t b) = b :=
  basename_append h

/-! ## C9: LabVIEW-name encode/decode round trip

Source of the encoder (`src/tools/migrateclip.py`, `process_clip_xml`):
`lv_name = "IO Socket\\" + name.replace(".", "\\")`.
Source of the decoder (`src/tools/genlvtargetsupport.py`,
`generate_xml_from_csv`): `original_name = lv_name[10:].replace("\\", ".")`.
-/

/-- The descriptor-to-CSV converter's LabVIEW-name encoding. -/
def encodeLvName (name : Str) : Str :=
  str "IO Socket\\" ++ replaceChar '.' '\\' name

/-- The CSV-to-XML generator's LabVIEW-name decoding. -/
def decodeLvName (lv : Str) : Str :=
  replaceChar '\\' '.' (lv.drop 10)

theorem replaceChar_round {name : Str} (h : '\\' ∉ name) :
    replaceChar '\\' '.' (replaceChar '.' '\\' name) = name := by
  induction name with
  | nil => rfl
  | cons a l ih =>
    have ha : a ≠ '\\' := by rintro rfl; exact h (List.mem_cons_self _ _)
    have h' : '\\' ∉ l := fun hm => h (List.mem_cons_of_mem _ hm)
    simp only [replaceChar, List.map_cons] at *
    by_cases hd : a = '.'
    · subst hd; simpa using ih h'
    · simp only [if_neg hd, if_neg ha]
      simpa using ih h'

/-- C9: for every signal name containing no backslash, encoding it to a CSV
LabVIEW name (prepend `IO Socket\` and replace `.` by `\`) and then decoding
(drop the first 10 characters and replace `\` by `.`) yields the original
name. -/
theorem lvname_roundtrip (name : Str) (h : '\\' ∉ name) :
    decodeLvName (encodeLvName name) = name := by
  unfold decodeLvName encodeLvName
  have hlen : (str "IO Socket\\").length = 10 := by rfl
  rw [← hlen, List.drop_left]
  exact replaceChar_round h

/-- Witness for `lvname_roundtrip` at the concrete name `A.B`. -/
theorem lvname_roundtrip_witness :
    '\\' ∉ str "A.B" ∧ decodeLvName (encodeLvName (str "A.B")) = str "A.B" :=
  ⟨by decide, lvname_roundtrip (str "A.B") (by decide)⟩

/-! ## C10: dependency relocation (`copy_deps_files`)

Source: `src/tools/createvivadoproject.py`, `copy_deps_files` (non-Windows
branch, `os.name != 'nt'`; the identical function also appears in
`src/lvfpgahdltools/vivadoprojecttools.py`).  The filesystem copy is
abstracted by the oracle `copyOk`; a failing copy raises `IOError` in the
source, modelled by the `none` result.  `tgt` stands for the
`objects/gathereddeps` target folder path.
-/

/-- `target_path = os.path.join(target_folder, os.path.basename(file))`. -/
def relocated (tgt f : Str) : Str := pjoin tgt (basename f)

/-- The relocation applied to one list entry when every copy succeeds. -/
def relocOne (tgt f : Str) : Str :=
  if containsSub (str "githubdeps") f then relocated tgt f else f

/-- `copy_deps_files` (non-Windows): entries whose path contains
`githubdeps` are copied into the target folder and replaced by the new
location; all other entries are appended unchanged.  A copy failure raises,
so no list is returned (`none`). -/
def copy_deps_files (copyOk : Str → Bool) (tgt : Str) : List Str → Option (List Str)
  | [] => some []
  | f :: fs =>
    if containsSub (str "githubdeps") f then
      if copyOk f then
        (copy_deps_files copyOk tgt fs).map (relocated tgt f :: ·)
      else none
    else (copy_deps_files copyOk tgt fs).map (f :: ·)

theorem copy_deps_files_eq_map {copyOk : Str → Bool} {tgt : Str} :
    ∀ {fs out : List Str}, copy_deps_files copyOk tgt fs = some out →
      out = fs.map (relocOne tgt)
  | [], out, h => by
    simp only [copy_deps_files, Option.some.injEq] at h
    rw [← h]; rfl
  | f :: fs, out, h => by
    simp only [copy_deps_files] at h
    by_cases hm : containsSub (str "githubdeps") f = true
    · rw [if_pos hm] at h
      by_cases hc : copyOk f = true
      · rw [if_pos hc] at h
        cases hrec : copy_deps_files copyOk tgt fs with
        | none => rw [hrec] at h; simp at h
        | some rest =>
          rw [hrec] at h
          simp only [Option.map_some', Option.some.injEq] at h
          have hr := copy_deps_files_eq_map hrec
          rw [← h, hr, List.map_cons]
          simp [relocOne, hm]
      · rw [if_neg hc] at h; simp at h
    · rw [if_neg hm] at h
      cases hrec : copy_deps_files copyOk tgt fs with
      | none => rw [hrec] at h; simp at h
      | some rest =>
        rw [hrec] at h
        simp only [Option.map_some', Option.some.injEq] at h
        have hr := copy_deps_files_eq_map hrec
        rw [← h, hr, List.map_cons]
        simp [relocOne, hm]

/-- C10: whenever `copy_deps_files` returns a list (no copy raised), the
result has exactly the length of its input, entries correspond positionally,
every entry whose path does not contain the `githubdeps` marker is unchanged
at its position, and marker entries are rewritten to the relocated path. -/
theorem copy_deps_files_frame (copyOk : Str → Bool) (tgt : Str)
    (fs out : List Str) (h : copy_deps_files copyOk tgt fs = some out) :
    out.length = fs.length ∧
      ∀ i (hi : i < fs.length) (ho : i < out.length),
        (containsSub (str "githubdeps") (fs.get ⟨i, hi⟩) = false →
          out.get ⟨i, ho⟩ = fs.get ⟨i, hi⟩) ∧
        (containsSub (str "githubdeps") (fs.get ⟨i, hi⟩) = true →
          out.get ⟨i, ho⟩ = relocated tgt (fs.get ⟨i, hi⟩)) := by
  have hmap := copy_deps_files_eq_map h
  subst hmap
  refine ⟨by simp, ?_⟩
  intro i hi ho
  simp only [List.get_eq_getElem, List.getElem_map]
  constructor
  · intro hmk
    simp [relocOne, hmk]
  · intro hmk
    simp [relocOne, hmk]

/-- Witness for `copy_deps_files_frame` on a concrete two-entry list with
one `githubdeps` marker entry. -/
theorem copy_deps_files_frame_witness :
    copy_deps_files (fun _ => true) (str "objects/gathereddeps")
        [str "src/a.vhd", str "githubdeps/x.vhd"] =
      some [str "src/a.vhd", str "objects/gathereddeps/x.vhd"] ∧
    ([str "src/a.vhd", str "objects/gathereddeps/x.vhd"] : List Str).length =
      ([str "src/a.vhd", str "githubdeps/x.vhd"] : List Str).length := by
  have h : copy_deps_files (fun _ => true) (str "objects/gathereddeps")
      [str "src/a.vhd", str "githubdeps/x.vhd"] =
      some [str "src/a.vhd", str "objects/gathereddeps/x.vhd"] := by decide
  exact ⟨h, (copy_deps_files_frame (fun _ => true) (str "objects/gathereddeps")
    [str "src/a.vhd", str "githubdeps/x.vhd"]
    [str "src/a.vhd", str "objects/gathereddeps/x.vhd"] h).1⟩

/-! ## File-set assembler (C2, C5)

Source: `src/tools/createvivadoproject.py` (`get_vivado_project_files`,
`find_and_log_duplicates`, `copy_deps_files`).  The filesystem is abstracted
by `AsmEnv`: `isDir`/`walk` model `os.path.isdir`/`os.walk` (with `walk`
returning the `(root, filename)` pairs in emission order), `copyOk` models
copy success, and `depsTarget` is the `objects/gathereddeps` folder.  The
assembler input is the list of listfile contents (each a list of lines);
listfile existence checking is outside the modelled scope.
-/

/-- Abstract filesystem and copy oracle for the assembler. -/
structure AsmEnv where
  isDir : Str → Bool
  walk : Str → List (Str × Str)
  copyOk : Str → Bool
  depsTarget : Str

/-- `fix_file_slashes`: backslashes become forward slashes. -/
def fix_file_slashes (p : Str) : Str := replaceChar '\\' '/' p

/-- The extension allow-list of the directory walk
(`('.vhd', '.v', '.sv', '.xdc', '.edf', '.dcp', '.xci')`). -/
def hdlExts : List Str :=
  [str ".vhd", str ".v", str ".sv", str ".xdc", str ".edf", str ".dcp", str ".xci"]

/-- Python `file.endswith(hdlExts)`. -/
def hasHdlExt (name : Str) : Bool := hdlExts.any (fun e => List.isSuffixOf e name)

/-- Processing of one listfile line: strip, skip blanks and `#` comments,
expand directories through the walk filtered by extension, otherwise take the
line verbatim; all produced paths are slash-normalized. -/
def expandLine (env : AsmEnv) (line : Str) : List Str :=
  let l := trim line
  if l = [] then []
  else if l.head? = some '#' then []
  else if env.isDir l then
    ((env.walk l).filter (fun rf => hasHdlExt rf.2)).map
      (fun rf => fix_file_slashes (pjoin rf.1 rf.2))
  else [fix_file_slashes l]

/-- The combined expansion of all listfiles, in encounter order. -/
def combinedExpansion (env : AsmEnv) (listfiles : List (List Str)) : List Str :=
  (listfiles.map (fun lines => (lines.map (expandLine env)).flatten)).flatten

/-- First-occurrence deduplication, mirroring Python dict insertion order. -/
def dedupFirst : List Str → List Str
  | [] => []
  | a :: l => a :: dedupFirst (l.filter (fun x => x != a))
termination_by l => l.length
decreasing_by
  simp only [List.length_cons]
  exact Nat.lt_succ_of_le (List.length_filter_le _ _)

/-- The keys of `file_dict` in `find_and_log_duplicates`, i.e. the distinct
basenames in first-occurrence order. -/
def basenameKeys (fl : List Str) : List Str := dedupFirst (fl.map basename)

/-- `file_dict[b]`: the paths whose basename is `b`, in encounter order. -/
def group (b : Str) (fl : List Str) : List Str :=
  fl.filter (fun f => basename f == b)

/-- The basenames shared by more than one path, in key order. -/
def collidingKeys (fl : List Str) : List Str :=
  (basenameKeys fl).filter (fun b => decide (1 < (group b fl).length))

/-- One log block: `Duplicate file: <b>` followed by one indented line per
path of the group and a blank line. -/
def blockFor (b : Str) (fl : List Str) : Str :=
  str "Duplicate file: " ++ b ++ ['\n'] ++
    ((group b fl).map (fun p => str "  " ++ p ++ ['\n'])).flatten ++ ['\n']

/-- The content of `duplicate_files.log`. -/
def duplicatesLog (fl : List Str) : Str :=
  ((collidingKeys fl).map (fun b => blockFor b fl)).flatten

/-- `find_and_log_duplicates`: when some basename group has more than one
member the log is written and `ValueError` is raised (`some log`); otherwise
nothing happens (`none`). -/
def find_and_log_duplicates (fl : List Str) : Option Str :=
  if collidingKeys fl = [] then none else some (duplicatesLog fl)

/-- Result of an assembly run.  `duplicateFilesDetected` carries the written
log, `dependencyCopyFailed` models the `IOError` of a failed dependency
copy. -/
inductive AsmResult
  | duplicateFilesDetected (log : Str)
  | dependencyCopyFailed
  | ok (files : List Str)
deriving DecidableEq

/-- Python string comparison (`<=`): lexicographic by code point. -/
def strLe : Str → Str → Bool
  | [], _ => true
  | _ :: _, [] => false
  | a :: l, b :: m => if a < b then true else if b < a then false else strLe l m

/-- One step of the sort used to model Python `sorted`. -/
def insertSorted (x : Str) : List Str → List Str
  | [] => [x]
  | y :: l => if strLe x y then x :: y :: l else y :: insertSorted x l

/-- Python `sorted` on strings.  Since `strLe` is an antisymmetric total
order, the sorted permutation is unique, so any correct sort models
`sorted` exactly. -/
def pySorted : List Str → List Str
  | [] => []
  | x :: l => insertSorted x (pySorted l)

/-- The assembly pipeline after expansion: duplicate detection on the
original paths, then dependency relocation, then the final sort. -/
def assembleFromList (env : AsmEnv) (fl : List Str) : AsmResult :=
  match find_and_log_duplicates fl with
  | some log => .duplicateFilesDetected log
  | none =>
    match copy_deps_files env.copyOk env.depsTarget fl with
    | none => .dependencyCopyFailed
    | some relocatedList => .ok (pySorted relocatedList)

/-- `get_vivado_project_files`: expansion followed by the pipeline. -/
def get_vivado_project_files (env : AsmEnv) (listfiles : List (List Str)) :
    AsmResult :=
  assembleFromList env (combinedExpansion env listfiles)

/-! ### Order lemmas for `strLe` -/

theorem strLe_total (a b : Str) : strLe a b = true ∨ strLe b a = true := by
  induction a generalizing b with
  | nil => left; rfl
  | cons x l ih =>
    cases b with
    | nil => right; rfl
    | cons y m =>
      rcases lt_trichotomy x y with h | h | h
      · left; simp [strLe, h]
      · subst h
        simp only [strLe, lt_irrefl, if_false]
        exact ih m
      · right; simp [strLe, h]

theorem strLe_trans {a b c : Str} (h1 : strLe a b = true)
    (h2 : strLe b c = true) : strLe a c = true := by
  induction a generalizing b c with
  | nil => rfl
  | cons x l ih =>
    cases b with
    | nil => simp [strLe] at h1
    | cons y m =>
      cases c with
      | nil => simp [strLe] at h2
      | cons z n =>
        simp only [strLe] at h1 h2 ⊢
        rcases lt_trichotomy x y with hxy | hxy | hxy
        · rcases lt_trichotomy y z with hyz | hyz | hyz
          · simp [lt_trans hxy hyz]
          · subst hyz; simp [hxy]
          · rw [if_neg (asymm hyz), if_pos hyz] at h2; exact absurd h2 (by simp)
        · subst hxy
          rcases lt_trichotomy x z with hyz | hyz | hyz
          · simp [hyz]
          · subst hyz
            rw [if_neg (lt_irrefl x), if_neg (lt_irrefl x)] at h1 h2 ⊢
            exact ih h1 h2
          · rw [if_neg (asymm hyz), if_pos hyz] at h2; exact absurd h2 (by simp)
        · rw [if_neg (asymm hxy), if_pos hxy] at h1; exact absurd h1 (by simp)

theorem insertSorted_perm (x : Str) (l : List Str) :
    (insertSorted x l).Perm (x :: l) := by
  induction l with
  | nil => rfl
  | cons y m ih =>
    simp only [insertSorted]
    split
    · rfl
    · exact ((ih.cons y).trans (List.Perm.swap x y m))

theorem pySorted_perm (l : List Str) : (pySorted l).Perm l := by
  induction l with
  | nil => rfl
  | cons x m ih => exact (insertSorted_perm x (pySorted m)).trans (ih.cons x)

theorem insertSorted_sorted {x : Str} {l : List Str}
    (h : l.Pairwise (fun a b => strLe a b = true)) :
    (insertSorted x l).Pairwise (fun a b => strLe a b = true) := by
  induction l with
  | nil => simp [insertSorted]
  | cons y m ih =>
    obtain ⟨hy, hm⟩ := List.pairwise_cons.1 h
    simp only [insertSorted]
    by_cases hxy : strLe x y = true
    · rw [if_pos hxy]
      refine List.Pairwise.cons ?_ (List.Pairwise.cons hy hm)
      intro z hz
      rcases List.mem_cons.1 hz with rfl | hz
      · exact hxy
      · exact strLe_trans hxy (hy z hz)
    · rw [if_neg hxy]
      have hyx : strLe y x = true := (strLe_total x y).resolve_left hxy
      refine List.Pairwise.cons ?_ (ih hm)
      intro z hz
      have hz' := (insertSorted_perm x m).mem_iff.1 hz
      rcases List.mem_cons.1 hz' with rfl | hz'
      · exact hyx
      · exact hy z hz'

theorem pySorted_sorted (l : List Str) :
    (pySorted l).Pairwise (fun a b => strLe a b = true) := by
  induction l with
  | nil => simp [pySorted]
  | cons x m ih => exact insertSorted_sorted ih

/-! ### Duplicate-detection lemmas -/

theorem mem_dedupFirst {x : Str} : ∀ (l : List Str), x ∈ dedupFirst l ↔ x ∈ l
  | [] => by simp [dedupFirst]
  | a :: l => by
    rw [dedupFirst]
    by_cases hx : x = a
    · subst hx; simp
    · simp only [List.mem_cons, hx, false_or]
      rw [mem_dedupFirst (l.filter (fun y => y != a))]
      simp [List.mem_filter, hx]
termination_by l => l.length
decreasing_by
  simp only [List.length_cons]
  exact Nat.lt_succ_of_le (List.length_filter_le _ _)

theorem group_sub_cons (b : Str) (f : Str) (fs : List Str) :
    (group b fs).length ≤ (group b (f :: fs)).length := by
  simp only [group, List.filter_cons]
  split <;> simp

theorem mem_of_group_ne_nil {b : Str} {fl : List Str}
    (h : group b fl ≠ []) : b ∈ fl.map basename := by
  rcases List.exists_mem_of_ne_nil _ h with ⟨f, hf⟩
  have := List.mem_filter.1 hf
  rcases this with ⟨hmem, hbn⟩
  have : basename f = b := by simpa using hbn
  exact this ▸ List.mem_map_of_mem basename hmem

/-- The dict groups have at most one member exactly when the basenames are
pairwise distinct. -/
theorem nodup_iff_groups {fl : List Str} :
    (fl.map basename).Nodup ↔ ∀ b, (group b fl).length ≤ 1 := by
  induction fl with
  | nil => simp [group]
  | cons f fs ih =>
    simp only [List.map_cons, List.nodup_cons]
    constructor
    · rintro ⟨hnm, hnd⟩ b
      simp only [group, List.filter_cons]
      by_cases hb : basename f = b
      · subst hb
        rw [if_pos (by simp)]
        have hgrp : group (basename f) fs = [] := by
          by_contra hne
          exact hnm (mem_of_group_ne_nil hne)
        simpa [group] using congrArg List.length hgrp
      · rw [if_neg (by simpa using hb)]
        exact ih.1 hnd b
    · intro h
      constructor
      · intro hmem
        rcases List.mem_map.1 hmem with ⟨g, hg, hbg⟩
        have hf : (group (basename f) (f :: fs)).length ≤ 1 := h (basename f)
        have : g ∈ group (basename f) fs := by
          simp [group, List.mem_filter, hg, hbg]
        have h2 : 2 ≤ (group (basename f) (f :: fs)).length := by
          have hcons : group (basename f) (f :: fs) =
              f :: group (basename f) fs := by
            simp [group, List.filter_cons]
          rw [hcons]
          have : 1 ≤ (group (basename f) fs).length :=
            List.length_pos.2 (List.ne_nil_of_mem this)
          simpa using Nat.succ_le_succ this
        omega
      · exact ih.2 (fun b => le_trans (group_sub_cons b f fs) (h b))

theorem collidingKeys_eq_nil_of_nodup {fl : List Str}
    (h : (fl.map basename).Nodup) : collidingKeys fl = [] := by
  rw [collidingKeys, List.filter_eq_nil_iff]
  intro b _
  have := nodup_iff_groups.1 h b
  simp only [decide_eq_true_eq]
  omega

theorem nodup_of_collidingKeys_eq_nil {fl : List Str}
    (h : collidingKeys fl = []) : (fl.map basename).Nodup := by
  rw [nodup_iff_groups]
  intro b
  by_contra hgt
  push_neg at hgt
  have hne : group b fl ≠ [] := by
    intro hnil
    rw [hnil] at hgt
    simp at hgt
  have hmem : b ∈ basenameKeys fl :=
    (mem_dedupFirst _).2 (mem_of_group_ne_nil hne)
  have : b ∈ collidingKeys fl := by
    rw [collidingKeys, List.mem_filter]
    exact ⟨hmem, by simpa using hgt⟩
  rw [h] at this
  exact absurd this (List.not_mem_nil b)

theorem colliding_mem {fl : List Str} {b : Str}
    (h : 2 ≤ (group b fl).length) : b ∈ collidingKeys fl := by
  have hne : group b fl ≠ [] := by
    intro hnil; rw [hnil] at h; simp at h
  rw [collidingKeys, List.mem_filter]
  refine ⟨(mem_dedupFirst _).2 (mem_of_group_ne_nil hne), by
    simp only [decide_eq_true_eq]; omega⟩

theorem join_decomp {x : Str} {L : List Str} (h : x ∈ L) :
    ∃ u v, L.flatten = u ++ x ++ v := by
  rcases List.append_of_mem h with ⟨s, t, rfl⟩
  refine ⟨s.flatten, t.flatten, ?_⟩
  simp [List.flatten_append]

theorem basename_relocOne (tgt f : Str) : basename (relocOne tgt f) = basename f := by
  rw [relocOne]
  split
  · exact basename_pjoin (slash_not_mem_basename f)
  · rfl

theorem copy_deps_all_ok (copyOk : Str → Bool) (tgt : Str) :
    ∀ {fl : List Str},
      (∀ f ∈ fl, containsSub (str "githubdeps") f = true → copyOk f = true) →
      copy_deps_files copyOk tgt fl = some (fl.map (relocOne tgt))
  | [], _ => rfl
  | f :: fs, h => by
    have hf := h f (List.mem_cons_self _ _)
    have hrest := copy_deps_all_ok copyOk tgt (fun g hg => h g (List.mem_cons_of_mem _ hg))
    simp only [copy_deps_files]
    by_cases hm : containsSub (str "githubdeps") f = true
    · rw [if_pos hm, if_pos (hf hm), hrest]
      simp [relocOne, hm]
    · rw [if_neg hm, hrest]
      simp [relocOne, hm]

/-- C2: if the combined expanded file list has two paths with a common
basename, assembly fails with the duplicates error carrying the diagnostic
log; the log is exactly one block per colliding basename group, and each
colliding group's block (listing every path of the group) occurs in the log.
Moreover a successfully returned list never contains a basename collision. -/
theorem assembler_duplicates (env : AsmEnv) (listfiles : List (List Str)) :
    (¬ ((combinedExpansion env listfiles).map basename).Nodup →
      get_vivado_project_files env listfiles =
        .duplicateFilesDetected (duplicatesLog (combinedExpansion env listfiles)) ∧
      duplicatesLog (combinedExpansion env listfiles) =
        ((collidingKeys (combinedExpansion env listfiles)).map
          (fun b => blockFor b (combinedExpansion env listfiles))).flatten ∧
      (∀ b, 2 ≤ (group b (combinedExpansion env listfiles)).length →
        ∃ u v, duplicatesLog (combinedExpansion env listfiles) =
          u ++ blockFor b (combinedExpansion env listfiles) ++ v)) ∧
    (∀ out, get_vivado_project_files env listfiles = .ok out →
      (out.map basename).Nodup) := by
  set fl := combinedExpansion env listfiles with hfl
  constructor
  · intro hdup
    have hkeys : collidingKeys fl ≠ [] := by
      intro hnil
      exact hdup (nodup_of_collidingKeys_eq_nil hnil)
    refine ⟨?_, rfl, ?_⟩
    · rw [get_vivado_project_files, ← hfl, assembleFromList,
        find_and_log_duplicates, if_neg hkeys]
    · intro b hb
      have hmem : blockFor b fl ∈
          (collidingKeys fl).map (fun k => blockFor k fl) :=
        List.mem_map_of_mem _ (colliding_mem hb)
      exact join_decomp hmem
  · intro out hout
    rw [get_vivado_project_files, ← hfl, assembleFromList] at hout
    cases hdet : find_and_log_duplicates fl with
    | some log => rw [hdet] at hout; exact absurd hout (by simp)
    | none =>
      rw [hdet] at hout
      have hnil : collidingKeys fl = [] := by
        by_contra hne
        rw [find_and_log_duplicates, if_neg hne] at hdet
        exact absurd hdet (by simp)
      have hnodup := nodup_of_collidingKeys_eq_nil hnil
      cases hcopy : copy_deps_files env.copyOk env.depsTarget fl with
      | none => rw [hcopy] at hout; exact absurd hout (by simp)
      | some l2 =>
        rw [hcopy] at hout
        have hl2 : l2 = fl.map (relocOne env.depsTarget) :=
          copy_deps_files_eq_map hcopy
        have hperm : (out.map basename).Perm (l2.map basename) := by
          have : out = pySorted l2 := by
            simpa using hout.symm
          rw [this]
          exact (pySorted_perm l2).map basename
        have hbn : l2.map basename = fl.map basename := by
          rw [hl2, List.map_map]
          exact List.map_congr_left (fun f _ => basename_relocOne _ f)
        rw [hbn] at hperm
        exact hperm.nodup_iff.2 hnodup

/-- Witness for `assembler_duplicates`: two directories both providing
`x.vhd`. -/
theorem assembler_duplicates_witness :
    get_vivado_project_files
        ⟨fun _ => false, fun _ => [], fun _ => true, str "gd"⟩
        [[str "a/x.vhd", str "b/x.vhd"]] =
      .duplicateFilesDetected
        (duplicatesLog (combinedExpansion
          ⟨fun _ => false, fun _ => [], fun _ => true, str "gd"⟩
          [[str "a/x.vhd", str "b/x.vhd"]])) ∧
    ∃ u v,
      duplicatesLog (combinedExpansion
          ⟨fun _ => false, fun _ => [], fun _ => true, str "gd"⟩
          [[str "a/x.vhd", str "b/x.vhd"]]) =
        u ++ blockFor (str "x.vhd")
          (combinedExpansion
            ⟨fun _ => false, fun _ => [], fun _ => true, str "gd"⟩
            [[str "a/x.vhd", str "b/x.vhd"]]) ++ v := by
  have h := (assembler_duplicates
    ⟨fun _ => false, fun _ => [], fun _ => true, str "gd"⟩
    [[str "a/x.vhd", str "b/x.vhd"]]).1 (by decide)
  exact ⟨h.1, h.2.2 (str "x.vhd") (by decide)⟩

/-- C5: on a collision-free expansion with successful dependency copies,
assembly returns a list, sorted by the lexicographic path order, of the same
cardinality as the expansion; and the pipeline applies duplicate detection
to the pre-relocation paths, relocates afterwards, and sorts last. -/
theorem assembler_sorted (env : AsmEnv) (listfiles : List (List Str))
    (hnodup : ((combinedExpansion env listfiles).map basename).Nodup)
    (hcopy : ∀ f ∈ combinedExpansion env listfiles,
      containsSub (str "githubdeps") f = true → env.copyOk f = true) :
    (∃ out, get_vivado_project_files env listfiles = .ok out ∧
      out.Pairwise (fun a b => strLe a b = true) ∧
      out.length = (combinedExpansion env listfiles).length) ∧
    (∀ fl, assembleFromList env fl =
      match find_and_log_duplicates fl with
      | some log => .duplicateFilesDetected log
      | none =>
        match copy_deps_files env.copyOk env.depsTarget fl with
        | none => .dependencyCopyFailed
        | some relocatedList => .ok (pySorted relocatedList)) := by
  refine ⟨?_, fun fl => rfl⟩
  set fl := combinedExpansion env listfiles with hfl
  have hdet : find_and_log_duplicates fl = none := by
    rw [find_and_log_duplicates, if_pos (collidingKeys_eq_nil_of_nodup hnodup)]
  have hcp := copy_deps_all_ok env.copyOk env.depsTarget hcopy
  refine ⟨pySorted (fl.map (relocOne env.depsTarget)), ?_, ?_, ?_⟩
  · rw [get_vivado_project_files, ← hfl, assembleFromList, hdet, hcp]
  · exact pySorted_sorted _
  · rw [(pySorted_perm _).length_eq]
    simp

/-- Witness for `assembler_sorted` on a concrete two-file input. -/
theorem assembler_sorted_witness :
    (∃ out, get_vivado_project_files
        ⟨fun _ => false, fun _ => [], fun _ => true, str "gd"⟩
        [[str "b/y.vhd", str "a/x.vhd"]] = .ok out ∧
      out.Pairwise (fun a b => strLe a b = true) ∧
      out.length = (combinedExpansion
        ⟨fun _ => false, fun _ => [], fun _ => true, str "gd"⟩
        [[str "b/y.vhd", str "a/x.vhd"]]).length) :=
  (assembler_sorted
    ⟨fun _ => false, fun _ => [], fun _ => true, str "gd"⟩
    [[str "b/y.vhd", str "a/x.vhd"]] (by decide) (by decide)).1

/-! ## Decimal numerals

Infrastructure for Python's `str(n)` rendering (used to build concrete
data-type strings of the closed grammar) and `int(s)` parsing (used by the
type mappers).  `int()`'s tolerance of underscores between digits is not
modelled; no embedded input contains one.
-/

/-- The decimal digit characters. -/
def digitChar (r : Nat) : Char :=
  if r = 0 then '0' else if r = 1 then '1' else if r = 2 then '2'
  else if r = 3 then '3' else if r = 4 then '4' else if r = 5 then '5'
  else if r = 6 then '6' else if r = 7 then '7' else if r = 8 then '8'
  else '9'

/-- Decimal rendering accumulator; the first argument is fuel (any bound on
the value renders it completely, and `natToChars` passes the value itself). -/
def natToCharsCore : Nat → Nat → Str → Str
  | _, 0, acc => acc
  | 0, _ + 1, acc => acc
  | f + 1, n + 1, acc =>
    natToCharsCore f ((n + 1) / 10) (digitChar ((n + 1) % 10) :: acc)

/-- Python `str(n)` for a natural number. -/
def natToChars (n : Nat) : Str := if n = 0 then ['0'] else natToCharsCore n n []

/-- The value of one digit character, when it is a digit. -/
def digitVal? (c : Char) : Option Nat :=
  if c.isDigit then some (c.toNat - 48) else none

/-- One step of left-to-right decimal accumulation. -/
def digitStep (acc : Option Nat) (c : Char) : Option Nat :=
  acc.bind fun a => (digitVal? c).map fun d => 10 * a + d

/-- The value of a non-empty all-digit string. -/
def digitsToNat? (l : Str) : Option Nat :=
  if l = [] then none else l.foldl digitStep (some 0)

/-- Python `int(s)`: optional surrounding whitespace, optional sign, digits. -/
def pyInt? (s : Str) : Option Int :=
  match trim s with
  | [] => none
  | c :: ds =>
    if c = '+' then (digitsToNat? ds).map Int.ofNat
    else if c = '-' then (digitsToNat? ds).map (fun n => -(n : Int))
    else (digitsToNat? (c :: ds)).map Int.ofNat

/-- `10 ^ (number of decimal digits of n)`, matching the recursion of
`natToCharsCore`. -/
def tenPow : Nat → Nat
  | 0 => 1
  | n + 1 => 10 * tenPow ((n + 1) / 10)
termination_by n => n
decreasing_by exact Nat.div_lt_self (Nat.succ_pos n) (by norm_num)

theorem digitChar_isDigit (r : Nat) : (digitChar r).isDigit = true := by
  unfold digitChar
  split_ifs <;> decide

theorem digitVal_digitChar {r : Nat} (h : r < 10) :
    digitVal? (digitChar r) = some r := by
  interval_cases r <;> decide

theorem natToCharsCore_length : ∀ (f n : Nat) (acc : Str), n ≤ f →
    acc.length ≤ (natToCharsCore f n acc).length ∧
      (n ≠ 0 → acc.length < (natToCharsCore f n acc).length)
  | _, 0, acc, _ => by simp [natToCharsCore]
  | 0, n + 1, acc, h => by omega
  | f + 1, n + 1, acc, h => by
    simp only [natToCharsCore]
    have hle : (n + 1) / 10 ≤ f := by
      have := Nat.div_lt_self (Nat.succ_pos n) (show 1 < 10 by norm_num)
      omega
    have ih := natToCharsCore_length f ((n + 1) / 10)
      (digitChar ((n + 1) % 10) :: acc) hle
    constructor
    · calc acc.length ≤ (digitChar ((n + 1) % 10) :: acc).length := by simp
        _ ≤ _ := ih.1
    · intro _
      calc acc.length < (digitChar ((n + 1) % 10) :: acc).length := by simp
        _ ≤ _ := ih.1

theorem natToChars_ne_nil (n : Nat) : natToChars n ≠ [] := by
  unfold natToChars
  split
  · simp
  · intro h
    have := (natToCharsCore_length n n [] le_rfl).2 (by assumption)
    rw [h] at this
    simp at this

theorem mem_natToCharsCore : ∀ (f n : Nat) (acc : Str) {c : Char},
    c ∈ natToCharsCore f n acc → c ∈ acc ∨ c.isDigit = true
  | _, 0, acc, c => by simp [natToCharsCore]; exact fun h => Or.inl h
  | 0, _ + 1, acc, c => by simp [natToCharsCore]; exact fun h => Or.inl h
  | f + 1, n + 1, acc, c => by
    simp only [natToCharsCore]
    intro h
    rcases mem_natToCharsCore f ((n + 1) / 10)
        (digitChar ((n + 1) % 10) :: acc) h with h' | h'
    · rcases List.mem_cons.1 h' with rfl | h''
      · exact Or.inr (digitChar_isDigit _)
      · exact Or.inl h''
    · exact Or.inr h'

theorem mem_natToChars {n : Nat} {c : Char} (h : c ∈ natToChars n) :
    c.isDigit = true := by
  unfold natToChars at h
  split at h
  · rcases List.mem_singleton.1 h with rfl; decide
  · rcases mem_natToCharsCore n n [] h with h' | h'
    · simp at h'
    · exact h'

theorem not_mem_natToChars {n : Nat} {c : Char} (h : c.isDigit = false) :
    c ∉ natToChars n := fun hm => by rw [mem_natToChars hm] at h; exact absurd h (by simp)

theorem natToCharsCore_spec : ∀ (f n : Nat) (acc : Str) (a : Nat), n ≤ f →
    (natToCharsCore f n acc).foldl digitStep (some a) =
      acc.foldl digitStep (some (a * tenPow n + n))
  | _, 0, acc, a, _ => by simp [natToCharsCore, tenPow]
  | 0, n + 1, acc, a, h => by omega
  | f + 1, n + 1, acc, a, h => by
    simp only [natToCharsCore]
    have hle : (n + 1) / 10 ≤ f := by
      have := Nat.div_lt_self (Nat.succ_pos n) (show 1 < 10 by norm_num)
      omega
    rw [natToCharsCore_spec f ((n + 1) / 10) _ a hle]
    simp only [List.foldl_cons]
    have hd : digitStep (some (a * tenPow ((n + 1) / 10) + (n + 1) / 10))
        (digitChar ((n + 1) % 10)) =
        some (10 * (a * tenPow ((n + 1) / 10) + (n + 1) / 10) + (n + 1) % 10) := by
      simp [digitStep, digitVal_digitChar (Nat.mod_lt _ (by norm_num))]
    rw [hd]
    congr 2
    have hmod := Nat.div_add_mod (n + 1) 10
    have hpow : tenPow (n + 1) = 10 * tenPow ((n + 1) / 10) := by
      conv_lhs => rw [tenPow]
    rw [hpow]
    set q := (n + 1) / 10
    set t := tenPow q
    have : 10 * (a * t + q) + (n + 1) % 10 = a * (10 * t) + (10 * q + (n + 1) % 10) := by
      ring
    rw [this, hmod]

theorem digitsToNat_natToChars (n : Nat) :
    digitsToNat? (natToChars n) = some n := by
  by_cases h : n = 0
  · subst h; decide
  · rw [natToChars, if_neg h, digitsToNat?]
    rw [if_neg (by
      intro hne
      have := (natToCharsCore_length n n [] le_rfl).2 h
      rw [hne] at this
      simp at this)]
    rw [natToCharsCore_spec n n [] 0 le_rfl]
    simp

theorem trim_eq_self {l : Str} (h : ∀ c ∈ l, isPyWs c = false) : trim l = l := by
  have hR : trimR l = l := by
    unfold trimR
    rw [show l.reverse.dropWhile isPyWs = l.reverse from ?_, List.reverse_reverse]
    cases hl : l.reverse with
    | nil => rfl
    | cons a t =>
      have ha : a ∈ l := by
        rw [← List.mem_reverse, hl]; exact List.mem_cons_self _ _
      simp [List.dropWhile_cons, h a ha]
  rw [trim, hR]
  unfold trimL
  cases l with
  | nil => rfl
  | cons a t => simp [List.dropWhile_cons, h a (List.mem_cons_self _ _)]

theorem isDigit_not_ws {c : Char} (h : c.isDigit = true) : isPyWs c = false := by
  revert h
  unfold Char.isDigit isPyWs
  intro h
  simp only [Bool.or_eq_false_iff, beq_eq_false_iff_ne, ne_eq]
  refine ⟨⟨⟨⟨⟨?_, ?_⟩, ?_⟩, ?_⟩, ?_⟩, ?_⟩ <;>
    · rintro rfl; revert h; decide

theorem pyInt_natToChars (n : Nat) : pyInt? (natToChars n) = some (n : Int) := by
  have htrim : trim (natToChars n) = natToChars n :=
    trim_eq_self (fun c hc => isDigit_not_ws (mem_natToChars hc))
  cases hl : natToChars n with
  | nil => exact absurd hl (natToChars_ne_nil n)
  | cons c ds =>
    have hc : c.isDigit = true :=
      mem_natToChars (n := n) (by rw [hl]; exact List.mem_cons_self _ _)
    have hplus : c ≠ '+' := by rintro rfl; revert hc; decide
    have hminus : c ≠ '-' := by rintro rfl; revert hc; decide
    rw [hl] at htrim
    simp only [pyInt?, htrim, if_neg hplus, if_neg hminus]
    rw [← hl, digitsToNat_natToChars n]
    rfl

/-! ## Data-type mappers (C3, C4)

Sources: `src/tools/genlvtargetsupport.py` (`map_datatype_to_vhdl`) and
`src/tools/migrateclip.py` (`map_lv_type_to_vhdl`).  The emitted VHDL type
strings have the shape `std_logic` or `std_logic_vector(msb downto 0)` and
are represented symbolically by `VhdlType`; an uncaught Python exception is
the `raised` result, and the `warned` flag records whether the call printed
a diagnostic.
-/

/-- Hardware type emitted by the mappers: `std_logic` or
`std_logic_vector(msb downto 0)`. -/
inductive VhdlType
  | stdLogic
  | stdLogicVector (msb : Int)
deriving DecidableEq

/-- Result of one mapper call. -/
inductive MapOut
  | ok (t : VhdlType) (warned : Bool)
  | raised
deriving DecidableEq

/-- Vector width of an emitted type (a bare `std_logic` is one bit wide). -/
def vhdlWidth : VhdlType → Int
  | .stdLogic => 1
  | .stdLogicVector msb => msb + 1

/-- Python `lst[0]` on a list known to be non-empty (`split` results). -/
def headPart (l : List Str) : Str := l.headD []

/-- `map_datatype_to_vhdl`'s FXP parameter extraction
(`data_type.split('(')[1].split(')')[0].split(',')` and `int(params[0])`);
`none` covers both the `IndexError` of `[1]` and a failing `int(...)`,
which the source's bare `except` turns into the 31-downto-0 default. -/
def fxpWordLen? (s : Str) : Option Int :=
  match (splitOnChar '(' s).get? 1 with
  | none => none
  | some t => pyInt? (headPart (splitOnChar ',' (headPart (splitOnChar ')' t))))

/-- The `Array` branch of `map_datatype_to_vhdl`.  Any exception inside the
`try` block (index errors of the splits, a non-numeric size or a `U`/`I`
element whose tail is not numeric) is caught, prints an error, and yields
the default `std_logic_vector(31 downto 0)`. -/
def map_array_genlv (s : Str) : MapOut :=
  match (splitOnChar '[' s).get? 1 with
  | none => .ok (.stdLogicVector 31) true
  | some t =>
    match pyInt? (headPart (splitOnChar ']' t)) with
    | none => .ok (.stdLogicVector 31) true
    | some size =>
      match (splitOnChar '<' s).get? 1 with
      | none => .ok (.stdLogicVector 31) true
      | some u =>
        let elem := headPart (splitOnChar '>' u)
        if elem = str "Boolean" then .ok (.stdLogicVector (size * 1 - 1)) false
        else if List.isPrefixOf (str "U") elem || List.isPrefixOf (str "I") elem then
          match pyInt? (elem.drop 1) with
          | some w => .ok (.stdLogicVector (size * w - 1)) false
          | none => .ok (.stdLogicVector 31) true
        else .ok (.stdLogicVector (size * 32 - 1)) false

/-- `map_datatype_to_vhdl` (genlvtargetsupport): `Boolean` is `std_logic`;
a `U`/`I` prefix parses the rest as the width (an uncaught `ValueError`
when it is not numeric); `FXP`/`Array` prefixes parse parameters with
32-bit-vector defaults on failure; anything else silently falls back to
`std_logic`. -/
def map_datatype_to_vhdl (data_type : Str) : MapOut :=
  if data_type = str "Boolean" then .ok .stdLogic false
  else if List.isPrefixOf (str "U") data_type ||
      List.isPrefixOf (str "I") data_type then
    match pyInt? (data_type.drop 1) with
    | some w => .ok (.stdLogicVector (w - 1)) false
    | none => .raised
  else if List.isPrefixOf (str "FXP") data_type then
    match fxpWordLen? data_type with
    | some wl => .ok (.stdLogicVector (wl - 1)) false
    | none => .ok (.stdLogicVector 31) false
  else if List.isPrefixOf (str "Array") data_type then
    map_array_genlv data_type
  else .ok .stdLogic false

/-- Python `s.strip(chars)`: drop the characters of `cs` from both ends. -/
def stripSet (cs l : Str) : Str :=
  ((l.dropWhile (fun c => cs.contains c)).reverse.dropWhile
    (fun c => cs.contains c)).reverse

/-- One unfolding of `map_lv_type_to_vhdl` (migrateclip), parameterized by
the recursive call used for array element types.  The source file never
does `import re`, so the `Array` branch's `re.search` raises `NameError` as soon
as the element type maps to a `std_logic_vector`; only `std_logic` elements
reach the `int(size) * 32 - 1` default.  The final branch prints the
unrecognized-type warning and returns `std_logic_vector(0 downto 0)`. -/
def map_lv_aux (recurse : Str → MapOut) (lv_type : Str) : MapOut :=
  if lv_type = str "Boolean" then .ok .stdLogic false
  else if lv_type = str "U8" then .ok (.stdLogicVector 7) false
  else if lv_type = str "U16" then .ok (.stdLogicVector 15) false
  else if lv_type = str "U32" then .ok (.stdLogicVector 31) false
  else if lv_type = str "U64" then .ok (.stdLogicVector 63) false
  else if lv_type = str "I8" then .ok (.stdLogicVector 7) false
  else if lv_type = str "I16" then .ok (.stdLogicVector 15) false
  else if lv_type = str "I32" then .ok (.stdLogicVector 31) false
  else if lv_type = str "I64" then .ok (.stdLogicVector 63) false
  else if List.isPrefixOf (str "FXP") lv_type then
    match pyInt? (headPart (splitOnChar ','
        (stripSet (str ")") (stripSet (str "FXP(") lv_type)))) with
    | some wl => .ok (.stdLogicVector (wl - 1)) false
    | none => .raised
  else if List.isPrefixOf (str "Array") lv_type then
    match (splitOnChar '<' lv_type).get? 1 with
    | none => .raised
    | some u =>
      match (splitOnChar '[' lv_type).get? 1 with
      | none => .raised
      | some t =>
        match recurse (headPart (splitOnChar '>' u)) with
        | .raised => .raised
        | .ok (.stdLogicVector _) _ => .raised
        | .ok .stdLogic w =>
          match pyInt? (headPart (splitOnChar ']' t)) with
          | none => .raised
          | some size => .ok (.stdLogicVector (size * 32 - 1)) w
  else .ok (.stdLogicVector 0) true

/-- Recursion unrolling for `map_lv_type_to_vhdl`.  An array element type is
the text between the first `<` and the following `>`, hence contains no
`<`; its own `Array` branch therefore raises on the `split('<')[1]` index
error before any further recursion, so depth 3 covers every input. -/
def map_lv_depth : Nat → Str → MapOut
  | 0, _ => .raised
  | n + 1, s => map_lv_aux (map_lv_depth n) s

/-- `map_lv_type_to_vhdl` (migrateclip). -/
def map_lv_type_to_vhdl (s : Str) : MapOut := map_lv_depth 3 s

/-! ### The closed data-type grammar and its rendering

`extract_data_type` (migrateclip) produces exactly the strings `Boolean`,
`U8` … `I64`, `FXP(<wl>,<il>,Signed|Unsigned)` and
`Array<<elem>>[<size>]` with `elem` one of the simple names, `FXP`, or
`Unknown`.  The tagged grammar below, with its renderer, represents those
strings.
-/

/-- Array element tags as they appear inside `Array<...>`. -/
inductive ArrElem
  | aBool
  | aU (w : Nat)
  | aI (w : Nat)
  | aFXP
  | aUnknown
deriving DecidableEq

/-- The closed data-type grammar of the spec. -/
inductive LvDataType
  | boolean
  | uint (w : Nat)
  | sint (w : Nat)
  | fxp (wl il : Nat) (sgn : Bool)
  | arr (elem : ArrElem) (size : Nat)
deriving DecidableEq

def renderElem : ArrElem → Str
  | .aBool => str "Boolean"
  | .aU w => 'U' :: natToChars w
  | .aI w => 'I' :: natToChars w
  | .aFXP => str "FXP"
  | .aUnknown => str "Unknown"

def renderSigned (sgn : Bool) : Str := if sgn then str "Signed" else str "Unsigned"

/-- Renders `Array<elem>[size]`. -/
def arrRender (e : Str) (n : Nat) : Str :=
  str "Array<" ++ e ++ '>' :: '[' :: (natToChars n ++ [']'])

/-- The string form of a grammar value, as written by `extract_data_type`
(`f"FXP({word_length},{int_word_length},{signed})"`,
`f"Array<{subtype}>[{size}]"`). -/
def renderDataType : LvDataType → Str
  | .boolean => str "Boolean"
  | .uint w => 'U' :: natToChars w
  | .sint w => 'I' :: natToChars w
  | .fxp wl il sgn =>
    str "FXP" ++ '(' ::
      (natToChars wl ++ ',' :: (natToChars il ++ ',' :: (renderSigned sgn ++ [')'])))
  | .arr e n => arrRender (renderElem e) n

/-- The element width stipulated by the claim. -/
def elemWidthClaim : ArrElem → Nat
  | .aBool => 1
  | .aU w => w
  | .aI w => w
  | .aFXP => 32
  | .aUnknown => 32

/-- The vector width stipulated by the claim. -/
def claimWidth : LvDataType → Nat
  | .boolean => 1
  | .uint w => w
  | .sint w => w
  | .fxp wl _ _ => wl
  | .arr e n => n * elemWidthClaim e

/-- The grammar values covered by the amended width claim (integer widths
restricted to the advertised `{8,16,32,64}`). -/
def okGrammar : LvDataType → Prop
  | .boolean => True
  | .uint w => w = 8 ∨ w = 16 ∨ w = 32 ∨ w = 64
  | .sint w => w = 8 ∨ w = 16 ∨ w = 32 ∨ w = 64
  | .fxp _ _ _ => True
  | .arr .aBool _ => True
  | .arr (.aU w) _ => w = 8 ∨ w = 16 ∨ w = 32 ∨ w = 64
  | .arr (.aI w) _ => w = 8 ∨ w = 16 ∨ w = 32 ∨ w = 64
  | .arr .aFXP _ => True
  | .arr .aUnknown _ => True

/-- `okGrammar` values whose array element is not the `Unknown` tag (the
cases on which the original claim's width formula holds for
`map_datatype_to_vhdl`). -/
def okGrammarStrict : LvDataType → Prop
  | .arr .aUnknown _ => False
  | dt => okGrammar dt

/-- What `map_datatype_to_vhdl` actually returns on each rendered grammar
value. -/
def genlvExpected : LvDataType → MapOut
  | .boolean => .ok .stdLogic false
  | .uint w => .ok (.stdLogicVector ((w : Int) - 1)) false
  | .sint w => .ok (.stdLogicVector ((w : Int) - 1)) false
  | .fxp wl _ _ => .ok (.stdLogicVector ((wl : Int) - 1)) false
  | .arr .aBool n => .ok (.stdLogicVector ((n : Int) * 1 - 1)) false
  | .arr (.aU w) n => .ok (.stdLogicVector ((n : Int) * (w : Int) - 1)) false
  | .arr (.aI w) n => .ok (.stdLogicVector ((n : Int) * (w : Int) - 1)) false
  | .arr .aFXP n => .ok (.stdLogicVector ((n : Int) * 32 - 1)) false
  | .arr .aUnknown _ => .ok (.stdLogicVector 31) true

/-- What `map_lv_type_to_vhdl` actually returns on each rendered grammar
value: it agrees on the simple and `FXP` forms, maps `Array<Boolean>` to
`32 * size` bits, and raises on every other array element type. -/
def lvExpected : LvDataType → MapOut
  | .boolean => .ok .stdLogic false
  | .uint w => .ok (.stdLogicVector ((w : Int) - 1)) false
  | .sint w => .ok (.stdLogicVector ((w : Int) - 1)) false
  | .fxp wl _ _ => .ok (.stdLogicVector ((wl : Int) - 1)) false
  | .arr .aBool n => .ok (.stdLogicVector ((n : Int) * 32 - 1)) false
  | .arr _ _ => .raised

/-! ### Helper lemmas for the rendered grammar strings -/

theorem not_mem_append {c : Char} {a b : Str} (ha : c ∉ a) (hb : c ∉ b) :
    c ∉ a ++ b := fun h => (List.mem_append.1 h).elim ha hb

theorem not_mem_cons {c a : Char} {l : Str} (h1 : c ≠ a) (h2 : c ∉ l) :
    c ∉ a :: l := fun h => (List.mem_cons.1 h).elim h1 h2

theorem ne_of_head {a b : Char} {l m : Str} (h : a ≠ b) : a :: l ≠ b :: m :=
  fun he => h (List.cons.inj he).1

theorem isPrefixOf_nil_left (l : Str) : List.isPrefixOf ([] : Str) l = true := by
  cases l <;> rfl

theorem isPrefixOf_append_self (p t : Str) : List.isPrefixOf p (p ++ t) = true := by
  induction p with
  | nil => exact isPrefixOf_nil_left t
  | cons a m ih => simp [List.isPrefixOf, ih]

theorem digit_not_contained {cs : Str} (hcs : ∀ d ∈ cs, d.isDigit = false)
    {c : Char} (hc : c.isDigit = true) : cs.contains c = false := by
  cases hm : cs.contains c
  · rfl
  · exact absurd (hcs c (List.elem_iff.1 hm)) (by simp [hc])

theorem dropWhile_digits_head {p : Char → Bool}
    (hp : ∀ c, c.isDigit = true → p c = false) (n : Nat) (rest : Str) :
    (natToChars n ++ rest).dropWhile p = natToChars n ++ rest := by
  rcases List.exists_cons_of_ne_nil (natToChars_ne_nil n) with ⟨c, cs, hcons⟩
  have hc : c.isDigit = true := mem_natToChars (by rw [hcons]; exact List.mem_cons_self _ _)
  rw [hcons, List.cons_append, List.dropWhile_cons, hp c hc]
  simp

theorem not_mem_renderSigned {c : Char} (hs : c ∉ str "Signed")
    (hu : c ∉ str "Unsigned") : ∀ sgn, c ∉ renderSigned sgn := fun sgn => by
  cases sgn <;> simpa [renderSigned]

/-- Extraction of the FXP word length by `map_datatype_to_vhdl`'s chain of
`split` calls, on any rendered `FXP(wl,il,_)` string. -/
theorem fxpWordLen_render (wl il : Nat) (sgn : Bool) :
    fxpWordLen? (renderDataType (.fxp wl il sgn)) = some (wl : Int) := by
  have hS₁ : '(' ∉ renderSigned sgn := not_mem_renderSigned (by decide) (by decide) sgn
  have hS₂ : ')' ∉ renderSigned sgn := not_mem_renderSigned (by decide) (by decide) sgn
  have hrest : '(' ∉ natToChars wl ++ ',' ::
      (natToChars il ++ ',' :: (renderSigned sgn ++ [')'])) :=
    not_mem_append (not_mem_natToChars (by decide))
      (not_mem_cons (by decide)
        (not_mem_append (not_mem_natToChars (by decide))
          (not_mem_cons (by decide)
            (not_mem_append hS₁ (by decide)))))
  have hB : ')' ∉ natToChars wl ++ ',' :: (natToChars il ++ ',' :: renderSigned sgn) :=
    not_mem_append (not_mem_natToChars (by decide))
      (not_mem_cons (by decide)
        (not_mem_append (not_mem_natToChars (by decide))
          (not_mem_cons (by decide) hS₂)))
  have hsplit1 : splitOnChar '(' (renderDataType (.fxp wl il sgn)) =
      str "FXP" :: [natToChars wl ++ ',' ::
        (natToChars il ++ ',' :: (renderSigned sgn ++ [')']))] := by
    rw [show renderDataType (.fxp wl il sgn) = str "FXP" ++ '(' ::
      (natToChars wl ++ ',' :: (natToChars il ++ ',' :: (renderSigned sgn ++ [')'])))
      from rfl]
    rw [splitOnChar_append_cons _ (by decide), splitOnChar_not_mem hrest]
  have hregroup : natToChars wl ++ ',' ::
      (natToChars il ++ ',' :: (renderSigned sgn ++ [')'])) =
      (natToChars wl ++ ',' :: (natToChars il ++ ',' :: renderSigned sgn)) ++ ')' :: [] := by
    simp [List.append_assoc]
  rw [fxpWordLen?, hsplit1]
  simp only [List.get?_cons_succ, List.get?_cons_zero]
  rw [hregroup, splitOnChar_append_cons _ hB]
  simp only [headPart, List.headD]
  rw [splitOnChar_append_cons _ (not_mem_natToChars (by decide))]
  simp only [headPart, List.headD]
  exact pyInt_natToChars wl

/-- The `split` extractions of `Array<E>[n]` used by both array branches. -/
theorem arr_split (E : Str) (n : Nat)
    (hlb : '[' ∉ E) (hlt : '<' ∉ E) (hgt : '>' ∉ E) :
    (splitOnChar '[' (arrRender E n)).get? 1 = some (natToChars n ++ [']']) ∧
    (splitOnChar '<' (arrRender E n)).get? 1 =
      some (E ++ '>' :: '[' :: (natToChars n ++ [']'])) ∧
    headPart (splitOnChar '>' (E ++ '>' :: '[' :: (natToChars n ++ [']']))) = E ∧
    pyInt? (headPart (splitOnChar ']' (natToChars n ++ [']']))) = some (n : Int) := by
  refine ⟨?_, ?_, ?_, ?_⟩
  · have hmain : arrRender E n =
        (str "Array<" ++ E ++ ['>']) ++ '[' :: (natToChars n ++ [']']) := by
      simp [arrRender, List.append_assoc]
    rw [hmain, splitOnChar_append_cons _
      (not_mem_append (not_mem_append (by decide) hlb) (by decide))]
    rw [splitOnChar_not_mem
      (not_mem_append (not_mem_natToChars (by decide)) (by decide))]
    rfl
  · have hmain : arrRender E n =
        str "Array" ++ '<' :: (E ++ '>' :: '[' :: (natToChars n ++ [']'])) := by
      simp [arrRender, str, List.append_assoc]
    rw [hmain, splitOnChar_append_cons _ (by decide)]
    rw [splitOnChar_not_mem (not_mem_append hlt
      (not_mem_cons (by decide) (not_mem_cons (by decide)
        (not_mem_append (not_mem_natToChars (by decide)) (by decide)))))]
    rfl
  · rw [splitOnChar_append_cons _ hgt]
    rfl
  · rw [show natToChars n ++ [']'] = natToChars n ++ ']' :: [] from rfl,
      splitOnChar_append_cons _ (not_mem_natToChars (by decide))]
    simpa [headPart] using pyInt_natToChars n

theorem isPrefixOf_cons_ne {a b : Char} (h : (a == b) = false) (m l : Str) :
    List.isPrefixOf (a :: m) (b :: l) = false := by simp [List.isPrefixOf, h]

theorem isPrefixOf_cons_same (a : Char) (m l : Str) :
    List.isPrefixOf (a :: m) (a :: l) = List.isPrefixOf m l := by
  simp [List.isPrefixOf]

/-- The '[' / '<' / '>' characters never occur in a rendered element tag. -/
theorem renderElem_chars (e : ArrElem) :
    '[' ∉ renderElem e ∧ '<' ∉ renderElem e ∧ '>' ∉ renderElem e := by
  cases e with
  | aU w =>
    exact ⟨not_mem_cons (by decide) (not_mem_natToChars (by decide)),
      not_mem_cons (by decide) (not_mem_natToChars (by decide)),
      not_mem_cons (by decide) (not_mem_natToChars (by decide))⟩
  | aI w =>
    exact ⟨not_mem_cons (by decide) (not_mem_natToChars (by decide)),
      not_mem_cons (by decide) (not_mem_natToChars (by decide)),
      not_mem_cons (by decide) (not_mem_natToChars (by decide))⟩
  | aBool => exact ⟨by decide, by decide, by decide⟩
  | aFXP => exact ⟨by decide, by decide, by decide⟩
  | aUnknown => exact ⟨by decide, by decide, by decide⟩

/-- `map_datatype_to_vhdl` on every rendered value of the restricted
grammar. -/
theorem genlv_on_render (dt : LvDataType) (hok : okGrammar dt) :
    map_datatype_to_vhdl (renderDataType dt) = genlvExpected dt := by
  cases dt with
  | boolean => decide
  | uint w => rcases hok with rfl | rfl | rfl | rfl <;> decide
  | sint w => rcases hok with rfl | rfl | rfl | rfl <;> decide
  | fxp wl il sgn =>
    have hhead : renderDataType (.fxp wl il sgn) = 'F' :: ('X' :: 'P' :: '(' ::
        (natToChars wl ++ ',' ::
          (natToChars il ++ ',' :: (renderSigned sgn ++ [')'])))) := rfl
    have hBool : renderDataType (.fxp wl il sgn) ≠ str "Boolean" := by
      rw [hhead]; exact ne_of_head (by decide)
    have hU : List.isPrefixOf (str "U") (renderDataType (.fxp wl il sgn)) = false := by
      rw [hhead]; exact isPrefixOf_cons_ne (by decide) _ _
    have hI : List.isPrefixOf (str "I") (renderDataType (.fxp wl il sgn)) = false := by
      rw [hhead]; exact isPrefixOf_cons_ne (by decide) _ _
    have hFXP : List.isPrefixOf (str "FXP") (renderDataType (.fxp wl il sgn)) = true :=
      isPrefixOf_append_self (str "FXP") ('(' ::
        (natToChars wl ++ ',' :: (natToChars il ++ ',' :: (renderSigned sgn ++ [')']))))
    rw [map_datatype_to_vhdl, if_neg hBool, if_neg (by simp [hU, hI]), if_pos hFXP,
      fxpWordLen_render]
    rfl
  | arr e n =>
    obtain ⟨h1, h2, h3⟩ := renderElem_chars e
    obtain ⟨ha, hb, hc, hd⟩ := arr_split (renderElem e) n h1 h2 h3
    have hhead : renderDataType (.arr e n) = 'A' :: ('r' :: 'r' :: 'a' :: 'y' :: '<' ::
        (renderElem e ++ '>' :: '[' :: (natToChars n ++ [']']))) := rfl
    have hBool : renderDataType (.arr e n) ≠ str "Boolean" := by
      rw [hhead]; exact ne_of_head (by decide)
    have hU : List.isPrefixOf (str "U") (renderDataType (.arr e n)) = false := by
      rw [hhead]; exact isPrefixOf_cons_ne (by decide) _ _
    have hI : List.isPrefixOf (str "I") (renderDataType (.arr e n)) = false := by
      rw [hhead]; exact isPrefixOf_cons_ne (by decide) _ _
    have hFXP : List.isPrefixOf (str "FXP") (renderDataType (.arr e n)) = false := by
      rw [hhead]; exact isPrefixOf_cons_ne (by decide) _ _
    have hArr : List.isPrefixOf (str "Array") (renderDataType (.arr e n)) = true :=
      isPrefixOf_append_self (str "Array") ('<' ::
        (renderElem e ++ '>' :: '[' :: (natToChars n ++ [']'])))
    rw [map_datatype_to_vhdl, if_neg hBool, if_neg (by simp [hU, hI]),
      if_neg (by simp [hFXP]), if_pos hArr]
    have hrepr : renderDataType (.arr e n) = arrRender (renderElem e) n := rfl
    rw [hrepr]
    cases e with
    | aBool =>
      simp only [renderElem] at ha hd hb hc
      simp only [map_array_genlv, ha, hd, hb, hc, renderElem]
      rw [if_pos trivial]
      rfl
    | aU w =>
      simp only [renderElem] at ha hd hb hc
      simp only [map_array_genlv, ha, hd, hb, hc, renderElem]
      rw [if_neg (by
        rw [show str "Boolean" = 'B' :: str "oolean" from rfl]
        exact ne_of_head (by decide))]
      rw [if_pos (by
        rw [show str "U" = 'U' :: ([] : Str) from rfl, isPrefixOf_cons_same,
          isPrefixOf_nil_left]
        simp)]
      rw [show ('U' :: natToChars w).drop 1 = natToChars w from rfl, pyInt_natToChars]
      rfl
    | aI w =>
      simp only [renderElem] at ha hd hb hc
      simp only [map_array_genlv, ha, hd, hb, hc, renderElem]
      rw [if_neg (by
        rw [show str "Boolean" = 'B' :: str "oolean" from rfl]
        exact ne_of_head (by decide))]
      rw [if_pos (by
        rw [show str "I" = 'I' :: ([] : Str) from rfl, isPrefixOf_cons_same,
          isPrefixOf_nil_left,
          show List.isPrefixOf (str "U") ('I' :: natToChars w) = false from
            isPrefixOf_cons_ne (by decide) _ _]
        simp)]
      rw [show ('I' :: natToChars w).drop 1 = natToChars w from rfl, pyInt_natToChars]
      rfl
    | aFXP =>
      simp only [renderElem] at ha hd hb hc
      simp only [map_array_genlv, ha, hd, hb, hc, renderElem]
      rw [if_neg (by decide), if_neg (by decide)]
      rfl
    | aUnknown =>
      simp only [renderElem] at ha hd hb hc
      simp only [map_array_genlv, ha, hd, hb, hc, renderElem]
      rw [if_neg (by decide), if_pos (by decide),
        show (str "Unknown").drop 1 = str "nknown" from rfl,
        show pyInt? (str "nknown") = none from by decide]
      rfl

theorem reverse_head_of_append_last {X S : Str} {d : Char} {T : Str}
    (hS : S.reverse = d :: T) : (X ++ S).reverse = d :: (T ++ X.reverse) := by
  rw [List.reverse_append, hS]
  simp

/-- `lv_type.strip("FXP(").strip(")")` on a rendered `FXP(wl,il,_)` string
leaves `wl,il,Signed|Unsigned`. -/
theorem stripSet_fxp (wl il : Nat) (sgn : Bool) :
    stripSet (str ")") (stripSet (str "FXP(") (renderDataType (.fxp wl il sgn))) =
      natToChars wl ++ ',' :: (natToChars il ++ ',' :: renderSigned sgn) := by
  have hpdigit1 : ∀ c, c.isDigit = true → ((str "FXP(").contains c) = false :=
    fun c hc => digit_not_contained (by decide) hc
  have hpdigit2 : ∀ c, c.isDigit = true → ((str ")").contains c) = false :=
    fun c hc => digit_not_contained (by decide) hc
  have hSrev : ∃ T, (renderSigned sgn).reverse = 'd' :: T := by
    cases sgn
    · exact ⟨str "engisnU", by decide⟩
    · exact ⟨str "engiS", by decide⟩
  obtain ⟨T0, hT0⟩ := hSrev
  have hregroup : natToChars wl ++ ',' ::
      (natToChars il ++ ',' :: (renderSigned sgn ++ [')'])) =
      (natToChars wl ++ ',' :: (natToChars il ++ ',' :: renderSigned sgn)) ++ [')'] := by
    simp [List.append_assoc]
  have hYgroup : natToChars wl ++ ',' :: (natToChars il ++ ',' :: renderSigned sgn) =
      (natToChars wl ++ ',' :: (natToChars il ++ [','])) ++ renderSigned sgn := by
    simp [List.append_assoc]
  have hYrev : (natToChars wl ++ ',' ::
      (natToChars il ++ ',' :: renderSigned sgn)).reverse =
      'd' :: (T0 ++ (natToChars wl ++ ',' :: (natToChars il ++ [','])).reverse) := by
    rw [hYgroup]
    exact reverse_head_of_append_last hT0
  have hstage1 : stripSet (str "FXP(") (renderDataType (.fxp wl il sgn)) =
      natToChars wl ++ ',' :: (natToChars il ++ ',' :: (renderSigned sgn ++ [')'])) := by
    rw [stripSet, show renderDataType (.fxp wl il sgn) =
      'F' :: 'X' :: 'P' :: '(' :: (natToChars wl ++ ',' ::
        (natToChars il ++ ',' :: (renderSigned sgn ++ [')']))) from rfl]
    rw [List.dropWhile_cons, if_pos (by decide), List.dropWhile_cons, if_pos (by decide),
      List.dropWhile_cons, if_pos (by decide), List.dropWhile_cons, if_pos (by decide)]
    rw [dropWhile_digits_head hpdigit1]
    rw [hregroup, List.reverse_append, show ([')'] : Str).reverse = [')'] from rfl,
      List.singleton_append, List.dropWhile_cons, if_neg (by decide)]
    rw [List.reverse_cons, List.reverse_reverse, ← hregroup]
  rw [hstage1, stripSet, dropWhile_digits_head hpdigit2]
  rw [hregroup, List.reverse_append, show ([')'] : Str).reverse = [')'] from rfl,
    List.singleton_append, List.dropWhile_cons, if_pos (by decide)]
  rw [hYrev, List.dropWhile_cons, if_neg (by decide), ← hYrev, List.reverse_reverse]

/-- `map_lv_type_to_vhdl` on every rendered value of the restricted
grammar. -/
theorem lv_on_render (dt : LvDataType) (hok : okGrammar dt) :
    map_lv_type_to_vhdl (renderDataType dt) = lvExpected dt := by
  cases dt with
  | boolean => decide
  | uint w => rcases hok with rfl | rfl | rfl | rfl <;> decide
  | sint w => rcases hok with rfl | rfl | rfl | rfl <;> decide
  | fxp wl il sgn =>
    have hhead : renderDataType (.fxp wl il sgn) = 'F' :: ('X' :: 'P' :: '(' ::
        (natToChars wl ++ ',' ::
          (natToChars il ++ ',' :: (renderSigned sgn ++ [')'])))) := rfl
    have hne : ∀ (y : Str) (b : Char) (m : Str), y = b :: m → b ≠ 'F' →
        renderDataType (.fxp wl il sgn) ≠ y := by
      intro y b m hy hb
      rw [hhead, hy]
      exact ne_of_head (Ne.symm hb)
    have hFXP : List.isPrefixOf (str "FXP") (renderDataType (.fxp wl il sgn)) = true :=
      isPrefixOf_append_self (str "FXP") ('(' :: (natToChars wl ++ ',' ::
        (natToChars il ++ ',' :: (renderSigned sgn ++ [')']))))
    simp only [map_lv_type_to_vhdl, map_lv_depth, map_lv_aux]
    rw [if_neg (hne (str "Boolean") 'B' (str "oolean") rfl (by decide)),
      if_neg (hne (str "U8") 'U' (str "8") rfl (by decide)),
      if_neg (hne (str "U16") 'U' (str "16") rfl (by decide)),
      if_neg (hne (str "U32") 'U' (str "32") rfl (by decide)),
      if_neg (hne (str "U64") 'U' (str "64") rfl (by decide)),
      if_neg (hne (str "I8") 'I' (str "8") rfl (by decide)),
      if_neg (hne (str "I16") 'I' (str "16") rfl (by decide)),
      if_neg (hne (str "I32") 'I' (str "32") rfl (by decide)),
      if_neg (hne (str "I64") 'I' (str "64") rfl (by decide)),
      if_pos hFXP, stripSet_fxp,
      splitOnChar_append_cons _ (not_mem_natToChars (by decide))]
    simp only [headPart, List.headD]
    rw [pyInt_natToChars]
    rfl
  | arr e n =>
    obtain ⟨h1, h2, h3⟩ := renderElem_chars e
    obtain ⟨ha, hb, hc, hd⟩ := arr_split (renderElem e) n h1 h2 h3
    have hhead : arrRender (renderElem e) n = 'A' :: ('r' :: 'r' :: 'a' :: 'y' :: '<' ::
        (renderElem e ++ '>' :: '[' :: (natToChars n ++ [']']))) := rfl
    have hne : ∀ (y : Str) (b : Char) (m : Str), y = b :: m → b ≠ 'A' →
        arrRender (renderElem e) n ≠ y := by
      intro y b m hy hb
      rw [hhead, hy]
      exact ne_of_head (Ne.symm hb)
    have hFXP : List.isPrefixOf (str "FXP") (arrRender (renderElem e) n) = false := by
      rw [hhead, show str "FXP" = 'F' :: str "XP" from rfl,
        isPrefixOf_cons_ne (by decide)]
    have hArr : List.isPrefixOf (str "Array") (arrRender (renderElem e) n) = true :=
      isPrefixOf_append_self (str "Array") ('<' ::
        (renderElem e ++ '>' :: '[' :: (natToChars n ++ [']'])))
    rw [show renderDataType (.arr e n) = arrRender (renderElem e) n from rfl,
      show map_lv_type_to_vhdl (arrRender (renderElem e) n) =
        map_lv_aux (map_lv_depth 2) (arrRender (renderElem e) n) from rfl]
    unfold map_lv_aux
    rw [if_neg (hne (str "Boolean") 'B' (str "oolean") rfl (by decide)),
      if_neg (hne (str "U8") 'U' (str "8") rfl (by decide)),
      if_neg (hne (str "U16") 'U' (str "16") rfl (by decide)),
      if_neg (hne (str "U32") 'U' (str "32") rfl (by decide)),
      if_neg (hne (str "U64") 'U' (str "64") rfl (by decide)),
      if_neg (hne (str "I8") 'I' (str "8") rfl (by decide)),
      if_neg (hne (str "I16") 'I' (str "16") rfl (by decide)),
      if_neg (hne (str "I32") 'I' (str "32") rfl (by decide)),
      if_neg (hne (str "I64") 'I' (str "64") rfl (by decide)),
      if_neg (by simp [hFXP]), if_pos hArr, hb]
    simp only [ha, hc]
    cases e with
    | aBool =>
      rw [show map_lv_depth 2 (renderElem .aBool) = .ok .stdLogic false
        from by decide]
      simp only [hd]
      rfl
    | aU w =>
      rcases hok with rfl | rfl | rfl | rfl
      · rw [show map_lv_depth 2 (renderElem (.aU 8)) =
          .ok (.stdLogicVector 7) false from by decide]
        rfl
      · rw [show map_lv_depth 2 (renderElem (.aU 16)) =
          .ok (.stdLogicVector 15) false from by decide]
        rfl
      · rw [show map_lv_depth 2 (renderElem (.aU 32)) =
          .ok (.stdLogicVector 31) false from by decide]
        rfl
      · rw [show map_lv_depth 2 (renderElem (.aU 64)) =
          .ok (.stdLogicVector 63) false from by decide]
        rfl
    | aI w =>
      rcases hok with rfl | rfl | rfl | rfl
      · rw [show map_lv_depth 2 (renderElem (.aI 8)) =
          .ok (.stdLogicVector 7) false from by decide]
        rfl
      · rw [show map_lv_depth 2 (renderElem (.aI 16)) =
          .ok (.stdLogicVector 15) false from by decide]
        rfl
      · rw [show map_lv_depth 2 (renderElem (.aI 32)) =
          .ok (.stdLogicVector 31) false from by decide]
        rfl
      · rw [show map_lv_depth 2 (renderElem (.aI 64)) =
          .ok (.stdLogicVector 63) false from by decide]
        rfl
    | aFXP =>
      rw [show map_lv_depth 2 (renderElem .aFXP) = .raised from by decide]
      rfl
    | aUnknown =>
      rw [show map_lv_depth 2 (renderElem .aUnknown) =
        .ok (.stdLogicVector 0) true from by decide]
      rfl

/-- C3 (counterexample): on the unrecognized data-type string `Garbage`,
`map_datatype_to_vhdl` yields the one-bit scalar `std_logic` with no
warning — not the 32-bit vector — while `map_lv_type_to_vhdl` yields the
1-bit vector `std_logic_vector(0 downto 0)` with a warning, so the two
caller paths also disagree; and the unrecognized string `Unknown`, which
starts with `U`, makes `map_datatype_to_vhdl` raise. -/
theorem typemap_default_counterexample :
    map_datatype_to_vhdl (str "Garbage") = .ok .stdLogic false ∧
    map_lv_type_to_vhdl (str "Garbage") = .ok (.stdLogicVector 0) true ∧
    VhdlType.stdLogic ≠ .stdLogicVector 31 ∧
    VhdlType.stdLogicVector 0 ≠ .stdLogicVector 31 ∧
    map_datatype_to_vhdl (str "Unknown") = .raised := by
  refine ⟨by decide, by decide, by decide, by decide, by decide⟩

/-- C3 (amended): a data-type string matching none of the recognized
branch heads (`Boolean`, a `U`/`I` prefix, `FXP`, `Array`) makes
`map_datatype_to_vhdl` return `std_logic` silently and
`map_lv_type_to_vhdl` return `std_logic_vector(0 downto 0)` with a
warning; neither mapper produces the 32-bit default there, and the two
defaults differ. -/
theorem typemap_default_amended (s : Str)
    (hbool : s ≠ str "Boolean")
    (hu : List.isPrefixOf (str "U") s = false)
    (hi : List.isPrefixOf (str "I") s = false)
    (hf : List.isPrefixOf (str "FXP") s = false)
    (harr : List.isPrefixOf (str "Array") s = false) :
    map_datatype_to_vhdl s = .ok .stdLogic false ∧
    map_lv_type_to_vhdl s = .ok (.stdLogicVector 0) true := by
  constructor
  · rw [map_datatype_to_vhdl, if_neg hbool, if_neg (by simp [hu, hi]),
      if_neg (by simp [hf]), if_neg (by simp [harr])]
  · have h8 : s ≠ str "U8" := by rintro rfl; exact absurd hu (by decide)
    have h16 : s ≠ str "U16" := by rintro rfl; exact absurd hu (by decide)
    have h32 : s ≠ str "U32" := by rintro rfl; exact absurd hu (by decide)
    have h64 : s ≠ str "U64" := by rintro rfl; exact absurd hu (by decide)
    have i8 : s ≠ str "I8" := by rintro rfl; exact absurd hi (by decide)
    have i16 : s ≠ str "I16" := by rintro rfl; exact absurd hi (by decide)
    have i32 : s ≠ str "I32" := by rintro rfl; exact absurd hi (by decide)
    have i64 : s ≠ str "I64" := by rintro rfl; exact absurd hi (by decide)
    simp only [map_lv_type_to_vhdl, map_lv_depth, map_lv_aux]
    rw [if_neg hbool, if_neg h8, if_neg h16, if_neg h32, if_neg h64,
      if_neg i8, if_neg i16, if_neg i32, if_neg i64,
      if_neg (by simp [hf]), if_neg (by simp [harr])]

/-- Witness for `typemap_default_amended` at the concrete string `Junk`. -/
theorem typemap_default_amended_witness :
    map_datatype_to_vhdl (str "Junk") = .ok .stdLogic false ∧
    map_lv_type_to_vhdl (str "Junk") = .ok (.stdLogicVector 0) true :=
  typemap_default_amended (str "Junk") (by decide) (by decide) (by decide)
    (by decide) (by decide)

/-- C4 (counterexample): the claim's array width formula fails on
`Array<Boolean>[2]` — the migrateclip mapper emits a 64-bit vector where
the claim stipulates width `2 × width(Boolean) = 2`. -/
theorem map_width_counterexample :
    renderDataType (.arr .aBool 2) = str "Array<Boolean>[2]" ∧
    map_lv_type_to_vhdl (str "Array<Boolean>[2]") = .ok (.stdLogicVector 63) false ∧
    (claimWidth (.arr .aBool 2) : Int) = 2 ∧
    vhdlWidth (.stdLogicVector 63) = 64 ∧ (64 : Int) ≠ 2 := by
  refine ⟨by decide, by decide, by decide, by decide, by decide⟩

/-- C4 (amended): on the closed grammar with integer widths in
`{8,16,32,64}`, `map_datatype_to_vhdl` realizes the claimed widths —
1 for `Boolean`, `w` for `U`/`I`, `word_length` for `FXP`, and
`size × width(elem)` for arrays with `Boolean`/`U`/`I`/`FXP` elements
(an `Unknown` element defaults the whole array to 32 bits with a printed
error) — while `map_lv_type_to_vhdl` agrees only on the non-array forms,
maps `Array(Boolean,size)` to `32 × size` bits, and raises on every other
array element (the module never imports `re`). -/
theorem map_width_amended (dt : LvDataType) (hok : okGrammar dt) :
    map_datatype_to_vhdl (renderDataType dt) = genlvExpected dt ∧
    map_lv_type_to_vhdl (renderDataType dt) = lvExpected dt ∧
    (okGrammarStrict dt →
      ∃ t, map_datatype_to_vhdl (renderDataType dt) = .ok t false ∧
        vhdlWidth t = (claimWidth dt : Int)) := by
  refine ⟨genlv_on_render dt hok, lv_on_render dt hok, ?_⟩
  intro hstrict
  rw [genlv_on_render dt hok]
  cases dt with
  | boolean => exact ⟨.stdLogic, rfl, rfl⟩
  | uint w =>
    refine ⟨_, rfl, ?_⟩
    simp only [vhdlWidth, claimWidth]
    ring
  | sint w =>
    refine ⟨_, rfl, ?_⟩
    simp only [vhdlWidth, claimWidth]
    ring
  | fxp wl il sgn =>
    refine ⟨_, rfl, ?_⟩
    simp only [vhdlWidth, claimWidth]
    ring
  | arr e n =>
    cases e with
    | aBool =>
      refine ⟨_, rfl, ?_⟩
      simp only [vhdlWidth, claimWidth, elemWidthClaim]
      push_cast
      ring
    | aU w =>
      refine ⟨_, rfl, ?_⟩
      simp only [vhdlWidth, claimWidth, elemWidthClaim]
      push_cast
      ring
    | aI w =>
      refine ⟨_, rfl, ?_⟩
      simp only [vhdlWidth, claimWidth, elemWidthClaim]
      push_cast
      ring
    | aFXP =>
      refine ⟨_, rfl, ?_⟩
      simp only [vhdlWidth, claimWidth, elemWidthClaim]
      push_cast
      ring
    | aUnknown => exact absurd hstrict (by simp [okGrammarStrict])

/-- Witness for `map_width_amended` at `Array<U16>[3]`. -/
theorem map_width_amended_witness :
    map_datatype_to_vhdl (renderDataType (.arr (.aU 16) 3)) =
      genlvExpected (.arr (.aU 16) 3) ∧
    map_lv_type_to_vhdl (renderDataType (.arr (.aU 16) 3)) =
      lvExpected (.arr (.aU 16) 3) := by
  have h := map_width_amended (.arr (.aU 16) 3) (by simp [okGrammar])
  exact ⟨h.1, h.2.1⟩

/-! ## Instantiation emitters (C7, C8)

Sources: `src/tools/common.py` (`generate_entity_instantiation`, with the
`architecture='rtl'` default parameter) and
`src/lvfpgahdltools/migrateclip.py` (`generate_entity_instantiation`, which
emits `<name>: <name>` with no `entity work.` clause).  The functions write
to a file; the model is the concatenation of the written text, taking the
already-parsed entity name and port list as inputs.
-/

/-- Python `sep.join(parts)`. -/
def joinSep (sep : Str) : List Str → Str
  | [] => []
  | [x] => x
  | x :: xs => x ++ sep ++ joinSep sep xs

/-- One port-map association, `    <port> => <port>`. -/
def assocFor (p : Str) : Str := str "    " ++ p ++ str " => " ++ p

/-- The emitted port-map block body, `",\n".join(port_mappings)`. -/
def portMapBody (ports : List Str) : Str :=
  joinSep (str ",\n") (ports.map assocFor)

/-- Everything `common.generate_entity_instantiation` writes before the
port associations. -/
def emitHeader (entity_name vhdl_path architecture : Str) : Str :=
  str "-- Entity instantiation for " ++ entity_name ++ str "\n" ++
  str "-- Generated from " ++ basename vhdl_path ++ str "\n\n" ++
  entity_name ++ str ": entity work." ++ entity_name ++ str " (" ++
  architecture ++ str ")\n" ++
  str "port map (\n"

/-- The full text written by `common.generate_entity_instantiation`. -/
def generate_entity_instantiation_text
    (entity_name vhdl_path : Str) (ports : List Str) (architecture : Str) : Str :=
  emitHeader entity_name vhdl_path architecture ++ portMapBody ports ++ str "\n);\n"

/-- The call with the source's default `architecture='rtl'` (as used by
`genlvtargetsupport.generate_vhdl_instantiation_example` and
`migrateclip.main`). -/
def generate_entity_instantiation_default
    (entity_name vhdl_path : Str) (ports : List Str) : Str :=
  generate_entity_instantiation_text entity_name vhdl_path ports (str "rtl")

/-- The full text written by the `lvfpgahdltools/migrateclip.py` variant of
`generate_entity_instantiation`. -/
def generate_entity_instantiation_lvfpga
    (entity_name vhdl_path : Str) (ports : List Str) : Str :=
  str "-- Entity instantiation for " ++ entity_name ++ str "\n" ++
  str "-- Generated from " ++ basename vhdl_path ++ str "\n\n" ++
  entity_name ++ str ": " ++ entity_name ++ str "\n" ++
  str "port map (\n" ++ portMapBody ports ++ str "\n);\n"

/-- The association block as the claim describes it: one
`portName => portName` association per port, comma-separated, no trailing
comma. -/
def specAssocBlock : List Str → Str
  | [] => []
  | [p] => str "    " ++ p ++ str " => " ++ p
  | p :: ps => str "    " ++ p ++ str " => " ++ p ++ str ",\n" ++ specAssocBlock ps

/-- The emitted text as the claim describes it: a header comment naming the
source entity, the instantiation header line
`<name>: entity work.<name> (<architecture>)`, and the parenthesized
port-map block closed by `);` (still an empty pair of parentheses when
`ports` is empty). -/
def specEmit (entity_name vhdl_path : Str) (ports : List Str)
    (architecture : Str) : Str :=
  (str "-- Entity instantiation for " ++ entity_name ++ str "\n" ++
    str "-- Generated from " ++ basename vhdl_path ++ str "\n\n") ++
  (entity_name ++ str ": entity work." ++ entity_name ++ str " (" ++
    architecture ++ str ")\n") ++
  (str "port map (\n" ++ specAssocBlock ports ++ str "\n);\n")

theorem specAssocBlock_eq (ports : List Str) :
    specAssocBlock ports = portMapBody ports := by
  induction ports with
  | nil => rfl
  | cons p ps ih =>
    cases ps with
    | nil => rfl
    | cons q qs =>
      rw [show specAssocBlock (p :: q :: qs) =
        str "    " ++ p ++ str " => " ++ p ++ str ",\n" ++ specAssocBlock (q :: qs)
        from rfl]
      rw [ih]
      rw [show portMapBody (p :: q :: qs) =
        assocFor p ++ str ",\n" ++ portMapBody (q :: qs) from rfl]
      simp [assocFor, List.append_assoc]

/-- C7 (amended): the common-module emitter produces exactly the claimed
format — header comment naming the entity, `<name>: entity work.<name>
(<architecture>)` with `rtl` as the default architecture, and a
comma-separated port-map block with no trailing comma, closed by `);` and
emitted (as an empty pair of parentheses) even for an empty port list —
whereas the `lvfpgahdltools/migrateclip.py` emitter omits the
`entity work.`/architecture clause and writes `<name>: <name>`. -/
theorem emit_format (entity_name vhdl_path : Str) (ports : List Str)
    (architecture : Str) :
    generate_entity_instantiation_text entity_name vhdl_path ports architecture =
      specEmit entity_name vhdl_path ports architecture ∧
    generate_entity_instantiation_default entity_name vhdl_path ports =
      specEmit entity_name vhdl_path ports (str "rtl") ∧
    generate_entity_instantiation_text entity_name vhdl_path [] architecture =
      emitHeader entity_name vhdl_path architecture ++ str "\n);\n" ∧
    generate_entity_instantiation_lvfpga entity_name vhdl_path ports =
      str "-- Entity instantiation for " ++ entity_name ++ str "\n" ++
      str "-- Generated from " ++ basename vhdl_path ++ str "\n\n" ++
      entity_name ++ str ": " ++ entity_name ++ str "\n" ++
      str "port map (\n" ++ portMapBody ports ++ str "\n);\n" := by
  refine ⟨?_, ?_, ?_, rfl⟩
  · rw [generate_entity_instantiation_text, specEmit, specAssocBlock_eq,
      emitHeader]
    simp [List.append_assoc]
  · rw [generate_entity_instantiation_default,
      generate_entity_instantiation_text, specEmit, specAssocBlock_eq,
      emitHeader]
    simp [List.append_assoc]
  · rw [generate_entity_instantiation_text]
    simp [portMapBody, joinSep]

/-- C7 (counterexample): on a concrete entity with one port, the
`lvfpgahdltools/migrateclip.py` emitter's output lacks the
`: entity work.` clause that the claim requires of the instantiation
header line, while the common emitter's output has it. -/
theorem emit_format_counterexample :
    containsSub (str ": entity work.")
      (generate_entity_instantiation_lvfpga (str "e") (str "f.vhd") [str "p"]) =
      false ∧
    containsSub (str ": entity work.")
      (generate_entity_instantiation_default (str "e") (str "f.vhd") [str "p"]) =
      true := by
  refine ⟨by decide, by decide⟩

/-! ### Round-trip re-extraction of port names (C8) -/

/-- The claim's re-extraction: split the emitted port-map block on `,` and
take, for each association, the (trimmed) name before the `=>` delimiter;
an all-whitespace block holds no association. -/
def reextractPortMapNames (block : Str) : List Str :=
  if trim block = [] then []
  else (splitOnChar ',' block).map (fun assoc => trim (beforeSub (str "=>") assoc))

/-- Ports as the entity-descriptor data model provides them: non-empty
trimmed identifier text containing neither a comma nor a `=>` sequence. -/
def goodPort (p : Str) : Prop :=
  p ≠ [] ∧ trim p = p ∧ ',' ∉ p ∧ containsSub (str "=>") p = false

instance goodPortDecidable (p : Str) : Decidable (goodPort p) := by
  unfold goodPort
  infer_instance

theorem isPrefixOf_one (a d : Char) (Y : Str) :
    List.isPrefixOf [a] (d :: Y) = (a == d) := by
  show (a == d && List.isPrefixOf [] Y) = (a == d)
  rw [isPrefixOf_nil_left, Bool.and_true]

theorem length_dropWhile_le (q : Char → Bool) :
    ∀ (l : Str), (l.dropWhile q).length ≤ l.length
  | [] => le_refl _
  | a :: t => by
    rw [List.dropWhile_cons]
    by_cases hq : q a = true
    · rw [if_pos hq]
      exact Nat.le_succ_of_le (length_dropWhile_le q t)
    · rw [if_neg hq]

theorem beforeSub_ws : ∀ {X : Str}, (∀ c ∈ X, c ≠ '=') → ∀ (r : Str),
    beforeSub (str "=>") (X ++ r) = X ++ beforeSub (str "=>") r
  | [], _, r => rfl
  | a :: X, h, r => by
    have hcond : List.isPrefixOf (str "=>") (a :: (X ++ r)) = false := by
      rw [show str "=>" = '=' :: str ">" from rfl]
      exact isPrefixOf_cons_ne
        (beq_eq_false_iff_ne.2 (Ne.symm (h a (List.mem_cons_self _ _)))) _ _
    rw [List.cons_append]
    simp only [beforeSub]
    rw [if_neg (by simp [hcond]), beforeSub_ws (fun c hc => h c (List.mem_cons_of_mem _ hc)) r]
    rw [List.cons_append]

theorem beforeSub_hit (rest : Str) : beforeSub (str "=>") (str "=>" ++ rest) = [] := by
  show beforeSub (str "=>") ('=' :: '>' :: rest) = []
  simp only [beforeSub]
  rw [if_pos (by
    rw [show str "=>" = '=' :: '>' :: ([] : Str) from rfl, isPrefixOf_cons_same,
      isPrefixOf_cons_same, isPrefixOf_nil_left])]

theorem beforeSub_through_port : ∀ {p : Str},
    containsSub (str "=>") p = false → ∀ {r : Str}, r.head? ≠ some '>' →
    beforeSub (str "=>") (p ++ r) = p ++ beforeSub (str "=>") r
  | [], _, r, _ => rfl
  | c :: p', hp, r, hr => by
    have hp' : List.isPrefixOf (str "=>") (c :: p') = false ∧
        containsSub (str "=>") p' = false := by
      have := hp
      simp only [containsSub, Bool.or_eq_false_iff] at this
      exact this
    have hcond : List.isPrefixOf (str "=>") (c :: (p' ++ r)) = false := by
      by_cases hc : c = '='
      · subst hc
        rw [show str "=>" = '=' :: str ">" from rfl, isPrefixOf_cons_same]
        cases p' with
        | nil =>
          cases r with
          | nil => rfl
          | cons d rs =>
            have hd : d ≠ '>' := fun hdq => hr (by rw [hdq]; rfl)
            rw [List.nil_append, show str ">" = '>' :: ([] : Str) from rfl]
            exact isPrefixOf_cons_ne (beq_eq_false_iff_ne.2 (Ne.symm hd)) _ _
        | cons d p'' =>
          have hone : List.isPrefixOf (str ">") (d :: p'') = false := by
            have h1 := hp'.1
            rw [show str "=>" = '=' :: str ">" from rfl, isPrefixOf_cons_same] at h1
            exact h1
          rw [show str ">" = '>' :: ([] : Str) from rfl] at hone ⊢
          rw [isPrefixOf_one] at hone
          rw [List.cons_append, isPrefixOf_one]
          exact hone
      · rw [show str "=>" = '=' :: str ">" from rfl]
        exact isPrefixOf_cons_ne (beq_eq_false_iff_ne.2 (Ne.symm hc)) _ _
    rw [List.cons_append]
    simp only [beforeSub]
    rw [if_neg (by simp [hcond]),
      beforeSub_through_port hp'.2 hr]
    rw [List.cons_append]

theorem dropWhile_eq_nil_mem {q : Char → Bool} : ∀ {l : Str},
    l.dropWhile q = [] → ∀ c ∈ l, q c = true
  | [], _, c, hc => absurd hc (List.not_mem_nil c)
  | a :: t, h, c, hc => by
    rw [List.dropWhile_cons] at h
    by_cases hq : q a = true
    · rw [if_pos hq] at h
      rcases List.mem_cons.1 hc with rfl | hc'
      · exact hq
      · exact dropWhile_eq_nil_mem h c hc'
    · rw [if_neg hq] at h
      exact absurd h (by simp)

theorem dropWhile_append_all {q : Char → Bool} : ∀ {X : Str},
    (∀ c ∈ X, q c = true) → ∀ (r : Str), (X ++ r).dropWhile q = r.dropWhile q
  | [], _, r => rfl
  | a :: X, h, r => by
    rw [List.cons_append, List.dropWhile_cons, if_pos (h a (List.mem_cons_self _ _))]
    exact dropWhile_append_all (fun c hc => h c (List.mem_cons_of_mem _ hc)) r

theorem trimR_decomp (l : Str) :
    ∃ w, l = trimR l ++ w ∧ ∀ c ∈ w, isPyWs c = true := by
  refine ⟨(l.reverse.takeWhile isPyWs).reverse, ?_, ?_⟩
  · calc l = l.reverse.reverse := (List.reverse_reverse l).symm
      _ = (l.reverse.takeWhile isPyWs ++ l.reverse.dropWhile isPyWs).reverse := by
          rw [List.takeWhile_append_dropWhile]
      _ = trimR l ++ (l.reverse.takeWhile isPyWs).reverse := by
          rw [List.reverse_append]; rfl
  · intro c hc
    exact List.mem_takeWhile_imp (List.mem_reverse.1 hc)

theorem trim_eq_nil_all_ws {l : Str} (h : trim l = []) :
    ∀ c ∈ l, isPyWs c = true := by
  rw [trim, trimL] at h
  have hR : ∀ c ∈ trimR l, isPyWs c = true := dropWhile_eq_nil_mem h
  obtain ⟨w, hw, hwall⟩ := trimR_decomp l
  intro c hc
  rw [hw] at hc
  rcases List.mem_append.1 hc with h1 | h1
  · exact hR c h1
  · exact hwall c h1

theorem trim_ne_nil {l : Str} {c : Char} (hc : c ∈ l) (hw : isPyWs c = false) :
    trim l ≠ [] :=
  fun h => by rw [trim_eq_nil_all_ws h c hc] at hw; exact absurd hw (by simp)

theorem trim_eq_self_head {p : Str} (hp : trim p = p) (hne : p ≠ []) :
    ∃ c T, p = c :: T ∧ isPyWs c = false := by
  obtain ⟨c, T, rfl⟩ := List.exists_cons_of_ne_nil hne
  refine ⟨c, T, rfl, ?_⟩
  by_contra hws
  simp only [Bool.not_eq_false] at hws
  obtain ⟨w, hw, _⟩ := trimR_decomp (c :: T)
  have hlen2 : (trimR (c :: T)).length ≤ (c :: T).length := by
    conv_rhs => rw [hw]
    simp
  have hlt : (trim (c :: T)).length < (c :: T).length := by
    rw [trim, trimL]
    cases hcase : trimR (c :: T) with
    | nil => simp
    | cons d u =>
      have hd : d = c := by
        have := congrArg (fun x => x.head?) hw
        rw [hcase] at this
        simpa using this.symm
      subst hd
      rw [List.dropWhile_cons, if_pos hws]
      have h1 := length_dropWhile_le isPyWs u
      have h2 : (d :: u).length ≤ (d :: T).length := by rw [← hcase]; exact hlen2
      simp only [List.length_cons] at h2 ⊢
      omega
  rw [hp] at hlt
  exact absurd hlt (lt_irrefl _)

theorem trim_eq_self_last {p : Str} (hp : trim p = p) (hne : p ≠ []) :
    ∃ c T, p.reverse = c :: T ∧ isPyWs c = false := by
  have hR : trimR p = p := by
    obtain ⟨w, hw, _⟩ := trimR_decomp p
    have h1 : (trim p).length ≤ (trimR p).length := by
      rw [trim, trimL]
      exact length_dropWhile_le isPyWs (trimR p)
    rw [hp] at h1
    have h2 : (trimR p).length ≤ p.length := by
      conv_rhs => rw [hw]
      simp
    have hwnil : w = [] := by
      have hlen := congrArg List.length hw
      rw [List.length_append] at hlen
      have : w.length = 0 := by omega
      exact List.length_eq_zero.1 this
    rw [hwnil, List.append_nil] at hw
    exact hw.symm
  obtain ⟨c, T, hrev⟩ := List.exists_cons_of_ne_nil
    (show p.reverse ≠ [] from fun hr => hne (by simpa using congrArg List.reverse hr))
  refine ⟨c, T, hrev, ?_⟩
  by_contra hws
  simp only [Bool.not_eq_false] at hws
  have hne2 : trimR p ≠ p := by
    rw [trimR, hrev, List.dropWhile_cons, if_pos hws]
    intro heq
    have hlen := congrArg List.length heq
    have hd := length_dropWhile_le isPyWs T
    rw [List.length_reverse] at hlen
    have hrevlen : p.length = T.length + 1 := by
      have := congrArg List.length hrev
      simpa using this
    omega
  exact hne2 hR

theorem trim_pad {X p : Str} (hX : ∀ c ∈ X, isPyWs c = true)
    (hp : trim p = p) (hne : p ≠ []) :
    trim (X ++ (p ++ [' '])) = p := by
  obtain ⟨c, T, hrev, hcws⟩ := trim_eq_self_last hp hne
  have h1 : trimR (X ++ (p ++ [' '])) = X ++ p := by
    rw [trimR, show (X ++ (p ++ [' '])).reverse = ' ' :: (p.reverse ++ X.reverse)
      from by simp]
    rw [List.dropWhile_cons, if_pos (by decide), hrev, List.cons_append,
      List.dropWhile_cons, if_neg (by simp [hcws]), ← List.cons_append, ← hrev]
    simp
  rw [trim, h1, trimL, dropWhile_append_all hX p]
  obtain ⟨d, S, hds, hdw⟩ := trim_eq_self_head hp hne
  rw [hds, List.dropWhile_cons, if_neg (by simp [hdw])]

theorem comma_not_mem_assocFor {p : Str} (hp : ',' ∉ p) : ',' ∉ assocFor p := by
  intro h
  have : ',' ∈ str "    " ∨ ',' ∈ p ∨ ',' ∈ str " => " ∨ ',' ∈ p := by
    simpa [assocFor, List.mem_append, or_assoc] using h
  rcases this with h1 | h1 | h1 | h1
  · exact absurd h1 (by decide)
  · exact hp h1
  · exact absurd h1 (by decide)
  · exact hp h1

/-- Extracting the name of one association: everything before the `=>`
back to the start, trimmed, is the port name again. -/
theorem extract_piece {W p : Str} (hW : ∀ c ∈ W, isPyWs c = true)
    (hne : p ≠ []) (htrim : trim p = p)
    (hsub : containsSub (str "=>") p = false) :
    trim (beforeSub (str "=>") (W ++ assocFor p)) = p := by
  have hsp : ∀ c ∈ str "    ", isPyWs c = true := by decide
  have hXws : ∀ c ∈ W ++ str "    ", isPyWs c = true := fun c hc =>
    (List.mem_append.1 hc).elim (hW c) (hsp c)
  have hXeq : ∀ c ∈ W ++ str "    ", c ≠ '=' := by
    intro c hc heq
    have := hXws c hc
    rw [heq] at this
    exact absurd this (by decide)
  have hb1 : beforeSub (str "=>") (W ++ assocFor p) =
      (W ++ str "    ") ++ (p ++ [' ']) := by
    rw [show W ++ assocFor p =
      (W ++ str "    ") ++ (p ++ (' ' :: (str "=>" ++ (' ' :: p))))
      from by
        simp only [assocFor, List.append_assoc]
        rfl]
    rw [beforeSub_ws hXeq, beforeSub_through_port hsub (by simp)]
    rw [show beforeSub (str "=>") (' ' :: (str "=>" ++ (' ' :: p))) =
      ' ' :: beforeSub (str "=>") (str "=>" ++ (' ' :: p)) from by
        rw [show (' ' :: (str "=>" ++ (' ' :: p))) =
          [' '] ++ (str "=>" ++ (' ' :: p)) from rfl]
        exact beforeSub_ws (by decide) _]
    rw [beforeSub_hit]
  rw [hb1]
  exact trim_pad hXws htrim hne

theorem reextract_go : ∀ (ports : List Str) (W : Str),
    (∀ c ∈ W, isPyWs c = true) → (∀ p ∈ ports, goodPort p) → ports ≠ [] →
    (splitOnChar ',' (W ++ portMapBody ports)).map
      (fun a => trim (beforeSub (str "=>") a)) = ports
  | [], _, _, _, hne => absurd rfl hne
  | [p], W, hW, hp, _ => by
    obtain ⟨hne, htrim, hcomma, hsub⟩ := hp p (List.mem_cons_self _ _)
    rw [show portMapBody [p] = assocFor p from rfl]
    rw [splitOnChar_not_mem (not_mem_append
      (fun hc => absurd (hW ',' hc) (by decide))
      (comma_not_mem_assocFor hcomma))]
    simp only [List.map_cons, List.map_nil]
    rw [extract_piece hW hne htrim hsub]
  | p :: q :: qs, W, hW, hp, _ => by
    obtain ⟨hne, htrim, hcomma, hsub⟩ := hp p (List.mem_cons_self _ _)
    rw [show W ++ portMapBody (p :: q :: qs) =
      (W ++ assocFor p) ++ ',' :: ('\n' :: portMapBody (q :: qs)) from by
        rw [show portMapBody (p :: q :: qs) =
          assocFor p ++ str ",\n" ++ portMapBody (q :: qs) from rfl]
        simp only [List.append_assoc]
        rfl]
    rw [splitOnChar_append_cons _ (not_mem_append
      (fun hc => absurd (hW ',' hc) (by decide))
      (comma_not_mem_assocFor hcomma))]
    rw [List.map_cons, extract_piece hW hne htrim hsub]
    rw [show ('\n' :: portMapBody (q :: qs)) = ['\n'] ++ portMapBody (q :: qs)
      from rfl]
    rw [reextract_go (q :: qs) ['\n'] (by decide)
      (fun r hr => hp r (List.mem_cons_of_mem _ hr)) (by simp)]

theorem eq_mem_body (p : Str) (ps : List Str) : '=' ∈ portMapBody (p :: ps) := by
  have h0 : '=' ∈ assocFor p := by
    have h1 : '=' ∈ str " => " := by decide
    simp [assocFor, List.mem_append, h1]
  cases ps with
  | nil => exact h0
  | cons q qs =>
    rw [show portMapBody (p :: q :: qs) =
      assocFor p ++ str ",\n" ++ portMapBody (q :: qs) from rfl]
    simp [List.mem_append, h0]

/-- C8: emitting an instantiation with the common emitter and re-extracting
the names from the emitted port-map block (splitting the associations on
`,` and taking the trimmed text before each `=>`) returns exactly the
original port sequence; the emitted text contains the block verbatim
between the header and the closing `);`. -/
theorem emit_extract_roundtrip (ports : List Str)
    (h : ∀ p ∈ ports, goodPort p) :
    reextractPortMapNames (portMapBody ports) = ports ∧
    ∀ entity_name vhdl_path architecture,
      generate_entity_instantiation_text entity_name vhdl_path ports architecture =
        emitHeader entity_name vhdl_path architecture ++ portMapBody ports ++
          str "\n);\n" := by
  refine ⟨?_, fun _ _ _ => rfl⟩
  cases ports with
  | nil => decide
  | cons p ps =>
    rw [reextractPortMapNames,
      if_neg (trim_ne_nil (eq_mem_body p ps) (by decide))]
    rw [show portMapBody (p :: ps) = [] ++ portMapBody (p :: ps) from rfl]
    exact reextract_go (p :: ps) [] (by simp) h (by simp)

/-- Witness for `emit_extract_roundtrip` on the concrete port list
`[clk, data_in]`. -/
theorem emit_extract_roundtrip_witness :
    reextractPortMapNames (portMapBody [str "clk", str "data_in"]) =
      [str "clk", str "data_in"] :=
  (emit_extract_roundtrip [str "clk", str "data_in"] (by decide)).1

/-! ### The VHDL entity parser, `common.parse_vhdl_entity` (C1, C6)

The source locates `entity\s+(\w+)\s+is` and then `port\s*\(`
case-insensitively with `re.search`; in both patterns the character classes
and literals that follow each other are disjoint, so Python's
leftmost-greedy matching coincides with deterministic maximal munch, which
is what the embedding below does.  The parenthesis scan, the comment
removal and the per-declaration extraction are translated line by line.
-/

/-- Python regex `\w` on the ASCII text the source handles: letters,
digits and underscore. -/
def isWordChar (c : Char) : Bool := c.isAlphanum || c = '_'

/-- Case-insensitive literal match anchored at the start of the text;
returns the rest of the text after the literal when it matches. -/
def matchCI : Str → Str → Option Str
  | [], rest => some rest
  | _ :: _, [] => none
  | p :: ps, c :: cs => if p.toLower = c.toLower then matchCI ps cs else none

/-- `entity\s+(\w+)\s+is` anchored at the start of `s`; returns the captured
name and the rest of the text after the match. -/
def matchEntityAt (s : Str) : Option (Str × Str) :=
  match matchCI (str "entity") s with
  | none => none
  | some r1 =>
    if r1.takeWhile isPyWs = [] then none
    else
      let r2 := r1.dropWhile isPyWs
      if r2.takeWhile isWordChar = [] then none
      else
        let r3 := r2.dropWhile isWordChar
        if r3.takeWhile isPyWs = [] then none
        else
          match matchCI (str "is") (r3.dropWhile isPyWs) with
          | none => none
          | some r5 => some (r2.takeWhile isWordChar, r5)

/-- `re.search` for the entity pattern: the leftmost starting position
wins. -/
def searchEntity : Str → Option (Str × Str)
  | [] => none
  | c :: cs =>
    match matchEntityAt (c :: cs) with
    | some r => some r
    | none => searchEntity cs

/-- `port\s*\(` anchored at the start of `s`; returns the text after the
opening parenthesis. -/
def matchPortAt (s : Str) : Option Str :=
  match matchCI (str "port") s with
  | none => none
  | some r1 =>
    match r1.dropWhile isPyWs with
    | '(' :: rest => some rest
    | _ => none

/-- `re.search` for the port pattern within the text after the entity
match. -/
def searchPort : Str → Option Str
  | [] => none
  | c :: cs =>
    match matchPortAt (c :: cs) with
    | some r => some r
    | none => searchPort cs

/-- The parenthesis scan of lines 116-129 of `common.py`: starting at
nesting level `lvl`, find the parenthesis that closes the port section;
returns the section (the text before that `)`) and the rest. -/
def findClose : Str → Nat → Option (Str × Str)
  | [], _ => none
  | c :: cs, lvl =>
    if c = '(' then
      match findClose cs (lvl + 1) with
      | some (sec, rest) => some (c :: sec, rest)
      | none => none
    else if c = ')' then
      if lvl = 1 then some ([], cs)
      else
        match findClose cs (lvl - 1) with
        | some (sec, rest) => some (c :: sec, rest)
        | none => none
    else
      match findClose cs lvl with
      | some (sec, rest) => some (c :: sec, rest)
      | none => none

/-- `re.sub(r'--.*?$', '', section, flags=re.MULTILINE)`: on every line,
drop everything from the first `--` on. -/
def stripLineComments (s : Str) : Str :=
  joinSep (str "\n") ((splitOnChar '\n' s).map (beforeSub (str "--")))

/-- Lines 151-154 of the source applied to a names part: split on `,`,
strip every token, keep the non-empty ones, in order. -/
def tokensOf (s : Str) : List Str :=
  ((splitOnChar ',' s).map trim).filter (fun n => !n.isEmpty)

/-- Lines 142-154 of the source: the ports contributed by one
semicolon-delimited declaration. -/
def declPorts (decl : Str) : List Str :=
  if (trim decl).isEmpty then []
  else if (trim decl).contains ':' then
    tokensOf (trim ((trim decl).takeWhile (fun c => c != ':')))
  else []

/-- Lines 135-154 of the source: remove comments, split the port section on
`;`, extract per declaration. -/
def portsFromSection (sec : Str) : List Str :=
  ((splitOnChar ';' (stripLineComments sec)).map declPorts).flatten

/-- The outcomes of `parse_vhdl_entity` as the source distinguishes them:
no entity declaration, no port section, unbalanced parentheses (the error
printed at line 128), or success. -/
inductive ParseResult
  | noEntity : ParseResult
  | noPortSection : Str → ParseResult
  | unbalanced : Str → ParseResult
  | ok : Str → List Str → ParseResult
  deriving DecidableEq

/-- The port list the Python function returns in each outcome: every
failure returns `[]`. -/
def parsePorts : ParseResult → List Str
  | .ok _ ports => ports
  | _ => []

/-- `common.parse_vhdl_entity` on the file content. -/
def parse_vhdl_entity (content : Str) : ParseResult :=
  match searchEntity content with
  | none => .noEntity
  | some (name, rest) =>
    match searchPort rest with
    | none => .noPortSection name
    | some afterParen =>
      match findClose afterParen 1 with
      | none => .unbalanced name
      | some (sec, _) => .ok name (portsFromSection sec)

/-- Everything before the first occurrence of the character `c`. -/
def beforeChar (c : Char) (s : Str) : Str := s.takeWhile (fun x => x != c)

/-- The claim's description of the per-declaration extraction: for each
non-empty declaration containing a `:`, split the substring before the
first `:` on `,`, trim every token and keep each non-empty token; empty
declarations and declarations without a colon contribute nothing. -/
def specDeclPorts (decl : Str) : List Str :=
  if decl ≠ [] ∧ ':' ∈ decl then tokensOf (beforeChar ':' decl) else []

/-- The claim's description of the whole extraction over the
comment-stripped port section. -/
def specPortsFromSection (sec : Str) : List Str :=
  ((splitOnChar ';' (stripLineComments sec)).map specDeclPorts).flatten

/-- The number of occurrences of `c`. -/
def countChar (c : Char) : Str → Nat
  | [] => 0
  | a :: l => (if a = c then 1 else 0) + countChar c l

theorem countChar_cons_ne {c a : Char} (h : a ≠ c) (l : Str) :
    countChar c (a :: l) = countChar c l := by
  simp [countChar, h]

theorem countChar_cons_self (c : Char) (l : Str) :
    countChar c (c :: l) = countChar c l + 1 := by
  simp [countChar, Nat.add_comm]

theorem splitOnChar_cons_ne {c a : Char} (h : a ≠ c) {t p : Str} {ps : List Str}
    (hsp : splitOnChar c t = p :: ps) :
    splitOnChar c (a :: t) = (a :: p) :: ps := by
  unfold splitOnChar
  rw [if_neg h, hsp]

theorem dropWhile_all {q : Char → Bool} : ∀ {l : Str},
    (∀ c ∈ l, q c = true) → l.dropWhile q = []
  | [], _ => rfl
  | a :: t, h => by
    rw [List.dropWhile_cons, if_pos (h a (List.mem_cons_self _ _))]
    exact dropWhile_all (fun c hc => h c (List.mem_cons_of_mem _ hc))

theorem mem_of_mem_dropWhile {q : Char → Bool} : ∀ {l : Str} {c : Char},
    c ∈ l.dropWhile q → c ∈ l
  | [], _, h => h
  | a :: t, c, h => by
    rw [List.dropWhile_cons] at h
    by_cases hq : q a = true
    · rw [if_pos hq] at h
      exact List.mem_cons_of_mem _ (mem_of_mem_dropWhile h)
    · rw [if_neg hq] at h
      exact h

theorem mem_of_mem_trim {c : Char} {l : Str} (h : c ∈ trim l) : c ∈ l := by
  have h1 : c ∈ trimR l := mem_of_mem_dropWhile h
  have h2 : c ∈ l.reverse.dropWhile isPyWs := List.mem_reverse.1 h1
  exact List.mem_reverse.1 (mem_of_mem_dropWhile h2)

theorem trim_decomp (l : Str) : ∃ W V, l = W ++ (trim l ++ V) ∧
    (∀ c ∈ W, isPyWs c = true) ∧ (∀ c ∈ V, isPyWs c = true) := by
  obtain ⟨V, hV, hVws⟩ := trimR_decomp l
  refine ⟨(trimR l).takeWhile isPyWs, V, ?_,
    fun c hc => List.mem_takeWhile_imp hc, hVws⟩
  conv_lhs => rw [hV]
  rw [show trim l = trimL (trimR l) from rfl, trimL, ← List.append_assoc,
    List.takeWhile_append_dropWhile]

theorem mem_trim {c : Char} {l : Str} (hc : c ∈ l) (hws : isPyWs c = false) :
    c ∈ trim l := by
  obtain ⟨W, V, hl, hW, hV⟩ := trim_decomp l
  rw [hl] at hc
  rcases List.mem_append.1 hc with h | h
  · rw [hW c h] at hws
    exact absurd hws (by simp)
  · rcases List.mem_append.1 h with h | h
    · exact h
    · rw [hV c h] at hws
      exact absurd hws (by simp)

theorem trim_nil_of_all_ws {l : Str} (h : ∀ c ∈ l, isPyWs c = true) :
    trim l = [] := by
  have h0 : l.reverse.dropWhile isPyWs = [] :=
    dropWhile_all (fun c hc => h c (List.mem_reverse.1 hc))
  rw [trim, trimR, h0]
  rfl

theorem trim_append_ws_left {W : Str} (hW : ∀ c ∈ W, isPyWs c = true) (x : Str) :
    trim (W ++ x) = trim x := by
  by_cases hx : ∀ c ∈ x, isPyWs c = true
  · rw [trim_nil_of_all_ws hx,
      trim_nil_of_all_ws (fun c hc => (List.mem_append.1 hc).elim (hW c) (hx c))]
  · have hne : x.reverse.dropWhile isPyWs ≠ [] := by
      intro h0
      exact hx (fun c hc => dropWhile_eq_nil_mem h0 c (List.mem_reverse.2 hc))
    obtain ⟨a, t, hat⟩ := List.exists_cons_of_ne_nil hne
    have hIter : trimR (W ++ x) = W ++ trimR x := by
      rw [trimR, List.reverse_append, List.dropWhile_append, hat]
      simp only [List.isEmpty_cons, if_false, Bool.false_eq_true]
      rw [List.reverse_append, List.reverse_reverse, trimR, hat]
    rw [trim, hIter, trimL, dropWhile_append_all hW]
    rfl

theorem trim_append_ws_right {V : Str} (hV : ∀ c ∈ V, isPyWs c = true) (x : Str) :
    trim (x ++ V) = trim x := by
  have h0 : trimR (x ++ V) = trimR x := by
    rw [trimR, trimR, List.reverse_append,
      dropWhile_append_all (fun c hc => hV c (List.mem_reverse.1 hc))]
  rw [trim, h0]
  rfl

theorem takeWhile_append_all {q : Char → Bool} : ∀ {W : Str},
    (∀ c ∈ W, q c = true) → ∀ (r : Str), (W ++ r).takeWhile q = W ++ r.takeWhile q
  | [], _, r => rfl
  | a :: W, h, r => by
    rw [List.cons_append, List.takeWhile_cons, if_pos (h a (List.mem_cons_self _ _)),
      takeWhile_append_all (fun c hc => h c (List.mem_cons_of_mem _ hc)) r]
    rw [List.cons_append]

theorem takeWhile_append_of_mem {q : Char → Bool} : ∀ {d : Str} {x : Char},
    x ∈ d → q x = false → ∀ (V : Str), (d ++ V).takeWhile q = d.takeWhile q
  | [], x, hx, _, _ => absurd hx (List.not_mem_nil x)
  | a :: t, x, hx, hqx, V => by
    rw [List.cons_append, List.takeWhile_cons, List.takeWhile_cons]
    by_cases hqa : q a = true
    · rw [if_pos hqa, if_pos hqa]
      have hxt : x ∈ t := by
        rcases List.mem_cons.1 hx with rfl | h
        · rw [hqa] at hqx
          exact absurd hqx (by simp)
        · exact h
      rw [takeWhile_append_of_mem hxt hqx V]
    · rw [if_neg hqa, if_neg hqa]

/-- `modifyLast`: apply `f` to the final part of a split. -/
def modLast (f : Str → Str) : List Str → List Str
  | [] => []
  | [x] => [f x]
  | x :: y :: ys => x :: modLast f (y :: ys)

theorem splitOnChar_append_ws_right {c : Char} {V : Str} (hV : c ∉ V) :
    ∀ (x : Str), splitOnChar c (x ++ V) = modLast (fun u => u ++ V) (splitOnChar c x)
  | [] => by
    rw [List.nil_append, splitOnChar_not_mem hV]
    rfl
  | a :: t => by
    by_cases hac : a = c
    · subst hac
      rw [List.cons_append,
        show splitOnChar a (a :: (t ++ V)) = [] :: splitOnChar a (t ++ V) from by
          rw [splitOnChar, if_pos rfl],
        show splitOnChar a (a :: t) = [] :: splitOnChar a t from by
          rw [splitOnChar, if_pos rfl],
        splitOnChar_append_ws_right hV t]
      cases hsp : splitOnChar a t with
      | nil => exact absurd hsp (splitOnChar_ne_nil _ _)
      | cons p ps => rfl
    · obtain ⟨p, ps, hsp⟩ : ∃ p ps, splitOnChar c t = p :: ps := by
        cases h0 : splitOnChar c t with
        | nil => exact absurd h0 (splitOnChar_ne_nil _ _)
        | cons p ps => exact ⟨p, ps, rfl⟩
      cases ps with
      | nil =>
        have h1 : splitOnChar c (t ++ V) = [p ++ V] := by
          rw [splitOnChar_append_ws_right hV t, hsp]
          rfl
        rw [List.cons_append, splitOnChar_cons_ne hac h1,
          splitOnChar_cons_ne hac hsp]
        rfl
      | cons q qs =>
        have h1 : splitOnChar c (t ++ V) =
            p :: modLast (fun u => u ++ V) (q :: qs) := by
          rw [splitOnChar_append_ws_right hV t, hsp]
          rfl
        rw [List.cons_append, splitOnChar_cons_ne hac h1,
          splitOnChar_cons_ne hac hsp]
        rfl

theorem map_trim_modLast {V : Str} (hV : ∀ c ∈ V, isPyWs c = true) :
    ∀ (L : List Str), (modLast (fun u => u ++ V) L).map trim = L.map trim
  | [] => rfl
  | [x] => by
    rw [show modLast (fun u => u ++ V) [x] = [x ++ V] from rfl]
    simp only [List.map_cons, List.map_nil]
    rw [trim_append_ws_right hV x]
  | x :: y :: ys => by
    rw [show modLast (fun u => u ++ V) (x :: y :: ys) =
      x :: modLast (fun u => u ++ V) (y :: ys) from rfl]
    simp only [List.map_cons]
    rw [map_trim_modLast hV (y :: ys)]
    rfl

theorem tokensOf_ws_cons {a : Char} (ha : isPyWs a = true) (t : Str) :
    tokensOf (a :: t) = tokensOf t := by
  have ha' : a ≠ ',' := fun h0 => by
    rw [h0] at ha
    exact absurd ha (by decide)
  obtain ⟨p, ps, hsp⟩ : ∃ p ps, splitOnChar ',' t = p :: ps := by
    cases h0 : splitOnChar ',' t with
    | nil => exact absurd h0 (splitOnChar_ne_nil _ _)
    | cons p ps => exact ⟨p, ps, rfl⟩
  unfold tokensOf
  rw [splitOnChar_cons_ne ha' hsp, hsp]
  simp only [List.map_cons]
  rw [show trim (a :: p) = trim p from by
    rw [show a :: p = [a] ++ p from rfl]
    exact trim_append_ws_left
      (fun c hc => by rw [List.mem_singleton] at hc; rw [hc]; exact ha) p]

theorem tokensOf_ws_left : ∀ {W : Str} (s : Str),
    (∀ c ∈ W, isPyWs c = true) → tokensOf (W ++ s) = tokensOf s
  | [], _, _ => rfl
  | a :: W, s, h => by
    rw [List.cons_append, tokensOf_ws_cons (h a (List.mem_cons_self _ _)),
      tokensOf_ws_left s (fun c hc => h c (List.mem_cons_of_mem _ hc))]

theorem tokensOf_ws_suffix {V : Str} (hV : ∀ c ∈ V, isPyWs c = true) (x : Str) :
    tokensOf (x ++ V) = tokensOf x := by
  have hVc : ',' ∉ V := fun hc => absurd (hV ',' hc) (by decide)
  unfold tokensOf
  rw [splitOnChar_append_ws_right hVc x, map_trim_modLast hV (splitOnChar ',' x)]

theorem tokensOf_trim (s : Str) : tokensOf (trim s) = tokensOf s := by
  obtain ⟨W, V, hs, hW, hV⟩ := trim_decomp s
  conv_rhs => rw [hs]
  rw [tokensOf_ws_left (trim s ++ V) hW, tokensOf_ws_suffix hV (trim s)]

/-- The source's per-declaration extraction computes exactly what the claim
describes. -/
theorem declPorts_eq_spec (decl : Str) : declPorts decl = specDeclPorts decl := by
  by_cases hcol : ':' ∈ decl
  · have h1 : ':' ∈ trim decl := mem_trim hcol (by decide)
    have h2 : trim decl ≠ [] := fun h0 => by
      rw [h0] at h1
      exact absurd h1 (List.not_mem_nil _)
    have hdne : decl ≠ [] := fun h0 => by
      rw [h0] at hcol
      exact absurd hcol (List.not_mem_nil _)
    have hie : (trim decl).isEmpty = false := by
      cases htd : trim decl with
      | nil => exact absurd htd h2
      | cons a t => rfl
    unfold declPorts specDeclPorts
    rw [if_neg (by simp [hie]), if_pos (List.elem_iff.2 h1), if_pos ⟨hdne, hcol⟩]
    obtain ⟨W, V, hd, hW, hV⟩ := trim_decomp decl
    have hq : ∀ c ∈ W, (c != ':') = true := by
      intro c hc
      have hwc := hW c hc
      simp only [bne_iff_ne, ne_eq]
      intro h0
      rw [h0] at hwc
      exact absurd hwc (by decide)
    have hbefore : beforeChar ':' decl =
        W ++ (trim decl).takeWhile (fun c => c != ':') := by
      conv_lhs =>
        rw [show beforeChar ':' decl = decl.takeWhile (fun x => x != ':') from rfl,
          hd]
      rw [takeWhile_append_all hq,
        takeWhile_append_of_mem (q := fun c => c != ':') h1 (by decide) V]
    rw [hbefore, tokensOf_ws_left _ hW, tokensOf_trim]
  · have hd : ':' ∉ trim decl := fun h => hcol (mem_of_mem_trim h)
    unfold declPorts specDeclPorts
    rw [if_neg (show ¬(decl ≠ [] ∧ ':' ∈ decl) from fun hand => hcol hand.2)]
    by_cases he : (trim decl).isEmpty = true
    · rw [if_pos he]
    · rw [if_neg he,
        if_neg (show ¬(trim decl).contains ':' = true from
          fun hcont => hd (List.elem_iff.1 hcont))]

theorem portsFromSection_eq_spec (sec : Str) :
    portsFromSection sec = specPortsFromSection sec := by
  unfold portsFromSection specPortsFromSection
  rw [show declPorts = specDeclPorts from funext declPorts_eq_spec]

/-- C1: whenever the parser succeeds, the returned ports are exactly the
trimmed non-empty comma-separated tokens before the first `:` of each
non-empty colon-containing semicolon-delimited declaration of the
comment-stripped port section, in encounter order. -/
theorem extractor_ports (content name : Str) (ports : List Str)
    (h : parse_vhdl_entity content = .ok name ports) :
    ∃ rest afterParen sec rem,
      searchEntity content = some (name, rest) ∧
      searchPort rest = some afterParen ∧
      findClose afterParen 1 = some (sec, rem) ∧
      ports = specPortsFromSection sec := by
  cases h1 : searchEntity content with
  | none =>
    simp only [parse_vhdl_entity, h1] at h
    exact ParseResult.noConfusion h
  | some pr =>
    obtain ⟨nm, rest⟩ := pr
    simp only [parse_vhdl_entity, h1] at h
    cases h2 : searchPort rest with
    | none =>
      simp only [h2] at h
      exact ParseResult.noConfusion h
    | some afterParen =>
      simp only [h2] at h
      cases h3 : findClose afterParen 1 with
      | none =>
        simp only [h3] at h
        exact ParseResult.noConfusion h
      | some sr =>
        obtain ⟨sec, rem⟩ := sr
        simp only [h3] at h
        injection h with hn hp
        subst hn
        exact ⟨rest, afterParen, sec, rem, rfl, h2, h3,
          by rw [← hp, portsFromSection_eq_spec]⟩

/-- Witness for `extractor_ports` on a concrete entity text with one
two-name declaration and one single-name declaration. -/
theorem extractor_ports_witness :
    ∃ rest afterParen sec rem,
      searchEntity (str "entity Foo is port (a, b : in std_logic; c : out bit); end")
        = some (str "Foo", rest) ∧
      searchPort rest = some afterParen ∧
      findClose afterParen 1 = some (sec, rem) ∧
      [str "a", str "b", str "c"] = specPortsFromSection sec :=
  extractor_ports
    (str "entity Foo is port (a, b : in std_logic; c : out bit); end")
    (str "Foo") [str "a", str "b", str "c"] (by decide)

theorem findClose_eq_none : ∀ (s : Str) (lvl : Nat),
    (∀ k, k ≤ s.length → countChar ')' (s.take k) < lvl + countChar '(' (s.take k)) →
    findClose s lvl = none
  | [], _, _ => rfl
  | c :: cs, lvl, h => by
    by_cases hc : c = '('
    · subst hc
      have h' : ∀ k, k ≤ cs.length →
          countChar ')' (cs.take k) < (lvl + 1) + countChar '(' (cs.take k) := by
        intro k hk
        have h2 := h (k + 1) (Nat.succ_le_succ hk)
        rw [List.take_succ_cons, countChar_cons_ne (by decide),
          countChar_cons_self] at h2
        omega
      unfold findClose
      rw [if_pos rfl, findClose_eq_none cs (lvl + 1) h']
    · by_cases hcr : c = ')'
      · subst hcr
        have hlvl : 1 < lvl := by
          have h1 := h 1 (by simp)
          rw [show List.take 1 (')' :: cs) = [')'] from rfl,
            show countChar ')' [')'] = 1 from rfl,
            show countChar '(' [')'] = 0 from rfl] at h1
          omega
        have h' : ∀ k, k ≤ cs.length →
            countChar ')' (cs.take k) < (lvl - 1) + countChar '(' (cs.take k) := by
          intro k hk
          have h2 := h (k + 1) (Nat.succ_le_succ hk)
          rw [List.take_succ_cons, countChar_cons_self,
            countChar_cons_ne (by decide)] at h2
          omega
        unfold findClose
        rw [if_neg hc, if_pos rfl, if_neg (by omega : ¬lvl = 1),
          findClose_eq_none cs (lvl - 1) h']
      · have h' : ∀ k, k ≤ cs.length →
            countChar ')' (cs.take k) < lvl + countChar '(' (cs.take k) := by
          intro k hk
          have h2 := h (k + 1) (Nat.succ_le_succ hk)
          rw [List.take_succ_cons, countChar_cons_ne hcr,
            countChar_cons_ne hc] at h2
          exact h2
        unfold findClose
        rw [if_neg hc, if_neg hcr, findClose_eq_none cs lvl h']

/-- C6: when the text after `port (` never lets the parenthesis level
return to zero (every prefix holds fewer `)` than `1 +` the number of `(`),
the parser reports unbalanced parentheses and the returned port list is
empty. -/
theorem extractor_unbalanced (content name rest afterParen : Str)
    (h1 : searchEntity content = some (name, rest))
    (h2 : searchPort rest = some afterParen)
    (h3 : ∀ k, k ≤ afterParen.length →
      countChar ')' (afterParen.take k) < 1 + countChar '(' (afterParen.take k)) :
    parse_vhdl_entity content = .unbalanced name ∧
    parsePorts (parse_vhdl_entity content) = [] := by
  have hp : parse_vhdl_entity content = .unbalanced name := by
    simp only [parse_vhdl_entity, h1, h2, findClose_eq_none afterParen 1 h3]
  exact ⟨hp, by rw [hp]; rfl⟩

/-- Witness for `extractor_unbalanced` on an entity text whose port
section is never closed. -/
theorem extractor_unbalanced_witness :
    parse_vhdl_entity (str "entity e is port ( (a : in t") =
      ParseResult.unbalanced (str "e") ∧
    parsePorts (parse_vhdl_entity (str "entity e is port ( (a : in t")) = [] :=
  extractor_unbalanced (str "entity e is port ( (a : in t") (str "e")
    (str " port ( (a : in t") (str " (a : in t")
    (by decide) (by decide) (by decide)

end LvFpga
